import Mathlib

/-!
Shallow embedding of the QDArchive harvester's admission pipeline and its
helpers, translated from the Python sources:

* `src/harvester/helpers/licensing.py` — the license classifier;
* `src/harvester/cli.py` — the per-file admission pipeline `_process_hits`,
  the metadata-record writer `_store_metadata_record`, the file classifier
  `_is_qda_file`, and the driver `_run_source`;
* `src/harvester/storage/files.py` — slug and output-path construction;
* `src/harvester/sources/dataverse.py` — `pull_file`'s retry loop.

Strings are modelled over `List Char` / `String` (the sources only ever deal
with ASCII-relevant behaviour for the properties below: `str.lower`,
`str.strip`, the regexes `<[^>]+>` and `\s+`, substring membership).  The
SQLAlchemy record store is modelled as a list of records where the session's
`query(...).filter_by(...).first()` becomes `List.find?` and
`session.add`/`commit` becomes appending; the filesystem is a list of paths.
Wall-clock timestamps (`downloaded_at`, `created_at`) are not modelled.
-/

namespace QDArchive

/-! ### Character and string helpers -/

/-- ASCII whitespace, as matched by the regex class `\s` and by `str.strip()`
for the ASCII range. -/
def isWs (c : Char) : Bool :=
  c = ' ' || c = '\t' || c = '\n' || c = '\r' || c = '\x0b' || c = '\x0c'

/-- One-pass state machine computing `re.sub(r"<[^>]+>", " ", s)`: in state
`some pend`, `pend` holds (reversed) the characters read since the most recent
unmatched `'<'`.  A `'>'` with at least one pending character closes a tag and
emits a single space; a `'>'` with no pending character means the `'<'` could
not start a match (the regex needs one or more non-`'>'` characters), so both
are emitted literally; input that ends inside a pending tag is emitted
literally, since a match needs a `'>'` and none follows. -/
def stripTagsSM : Option (List Char) → List Char → List Char
  | none, [] => []
  | some pend, [] => '<' :: pend.reverse
  | none, c :: rest =>
    if c = '<' then stripTagsSM (some []) rest
    else c :: stripTagsSM none rest
  | some pend, c :: rest =>
    if c = '>' then
      match pend with
      | [] => '<' :: '>' :: stripTagsSM none rest
      | _ :: _ => ' ' :: stripTagsSM none rest
    else stripTagsSM (some (c :: pend)) rest

/-- `re.sub(r"\s+", " ", ·)`: every maximal run of whitespace becomes one
space (emitted at the end of the run). -/
def collapseWs : List Char → List Char
  | [] => []
  | [c] => if isWs c then [' '] else [c]
  | c1 :: c2 :: rest =>
    if isWs c1 && isWs c2 then collapseWs (c2 :: rest)
    else (if isWs c1 then ' ' else c1) :: collapseWs (c2 :: rest)

/-- Drop all trailing characters satisfying `p`. -/
def dropTrail (p : Char → Bool) (l : List Char) : List Char :=
  (l.reverse.dropWhile p).reverse

/-- `str.strip`-style: drop characters satisfying `p` from both ends. -/
def stripBoth (p : Char → Bool) (l : List Char) : List Char :=
  dropTrail p (l.dropWhile p)

/-- Python's `pat in s` substring test. -/
def hasSubstr (pat : List Char) : List Char → Bool
  | [] => pat.isEmpty
  | c :: rest => pat.isPrefixOf (c :: rest) || hasSubstr pat rest

/-- `pat in s` on `String`s. -/
def strContains (pat s : String) : Bool := hasSubstr pat.data s.data

/-- `str.lower()` as a character map (the ASCII semantics of
`Char.toLower`); structurally recursive so that concrete instances reduce. -/
def strLower (s : String) : String := (s.data.map Char.toLower).asString

/-! ### License classifier (`harvester/helpers/licensing.py`) -/

/-- `_ACCEPTED`: prefixes / identifiers considered open enough to collect. -/
def _ACCEPTED : List String :=
  [ "cc-by"
  , "cc-by-sa"
  , "cc-by-nc"
  , "cc-by-nc-sa"
  , "cc-by-nd"
  , "cc-by-nc-nd"
  , "cc0"
  , "cc0-1.0"
  , "public domain"
  , "odc-by"
  , "odc-odbl"
  , "odc-pddl"
  , "mit"
  , "apache-2.0"
  , "standard-access"
  , "etalab"
  ]

/-- `_OPEN_PHRASES`: phrases found within long license text indicating an
open license, checked after stripping HTML and lowercasing. -/
def _OPEN_PHRASES : List String :=
  [ "creative commons"
  , "cc by"
  , "cc0"
  , "statistics canada open licence"
  , "licence ouverte"
  , "public domain"
  , "not aware of any copyright"
  , "no known restrictions"
  , "no known copyright restrictions"
  , "non-restricted"
  , "fully open content"
  , "united states government work"
  , "(a) openly available"
  , "(a) vapaasti"
  ]

/-- The two `re.sub` calls plus `.strip()` of `license_is_open`:
strip HTML tags, collapse whitespace, strip both ends. -/
def cleanChars (l : List Char) : List Char :=
  stripBoth isWs (collapseWs (stripTagsSM none l))

/-- Character-wise form of `.lower().replace(" ", "-").replace("_", "-")`
(all three operations are per-character, so their composition is a map). -/
def canonChar (c : Char) : Char :=
  let c1 := c.toLower
  let c2 := if c1 = ' ' then '-' else c1
  if c2 = '_' then '-' else c2

/-- Tail of `license_is_open` applied to the already-cleaned text: prefix
match of the canonical form against `_ACCEPTED`, else substring search of
`_OPEN_PHRASES` in the lower-cased cleaned text. -/
def openFromCleaned (cleaned : List Char) : Bool :=
  let canonical := cleaned.map canonChar
  if _ACCEPTED.any (fun p => p.data.isPrefixOf canonical) then true
  else
    let lower := cleaned.map Char.toLower
    _OPEN_PHRASES.any (fun p => hasSubstr p.data lower)

/-- `license_is_open(identifier)`: `None`/empty input is rejected; otherwise
the canonical form is prefix-matched against `_ACCEPTED`, with a substring
fallback over `_OPEN_PHRASES` on the cleaned lower-cased text. -/
def licenseIsOpen (identifier : Option String) : Bool :=
  match identifier with
  | none => false
  | some s =>
    if s = "" then false
    else openFromCleaned (cleanChars s.data)

/-! ### Spacing/case variants of allow-list members

`chVar` relates a character of a canonical allow-list member to a character
of a "case and spacing variant" of it: at a separator position (the member
has `'-'` or `' '`) the variant may carry `'-'`, `' '` or `'_'`; elsewhere
the variant is any character whose lower-case form is the member's
character. `chCase` is the pure case variant (separators kept verbatim). -/

def isSepChar (c : Char) : Bool := c = '-' || c = ' '

def isSepWsChar (c : Char) : Bool := isSepChar c || isWs c

def chVar (mc sc : Char) : Bool :=
  if isSepChar mc then sc = '-' || sc = ' ' || sc = '_'
  else sc.toLower = mc

def chCase (mc sc : Char) : Bool :=
  if isSepChar mc then sc = mc else sc.toLower = mc

def listVar : List Char → List Char → Bool
  | [], [] => true
  | mc :: ms, sc :: ss => chVar mc sc && listVar ms ss
  | _, _ => false

def listCase : List Char → List Char → Bool
  | [], [] => true
  | mc :: ms, sc :: ss => chCase mc sc && listCase ms ss
  | _, _ => false

/-! Shape predicates on lists of characters, used to show that cleaning
(`cleanChars`) is the identity on allow-list members and their variants. -/

def noHeadSat (p : Char → Bool) : List Char → Bool
  | [] => true
  | c :: _ => !p c

def noTrailSat (p : Char → Bool) : List Char → Bool
  | [] => true
  | [c] => !p c
  | _ :: c :: r => noTrailSat p (c :: r)

def noAdjSat (p : Char → Bool) : List Char → Bool
  | [] => true
  | [_] => true
  | a :: b :: r => !(p a && p b) && noAdjSat p (b :: r)

/-- Syntactic well-formedness of an allow-list member: nonempty; no `'<'`,
no `'_'`; its only whitespace is the separator `' '`; it neither starts nor
ends with a separator; no two adjacent separators. -/
def memberShape (m : List Char) : Bool :=
  !m.isEmpty
    && m.all (fun c => c ≠ '<' && c ≠ '_' && (!isWs c || isSepChar c))
    && noHeadSat isSepWsChar m
    && noTrailSat isSepWsChar m
    && noAdjSat isSepWsChar m

/-! ### Data model (`harvester/sources/base.py`, `harvester/database/models.py`)

`FileInfo` models one entry of a dataset's file manifest (a plain `dict` in
the source); fields read through `dict.get(...)` with no default are
`Option`-valued, `restricted` defaults to `False` and the name/URL keys are
always present. -/

structure FileInfo where
  name : String
  downloadUrl : String
  id : String
  size : Option Nat
  contentType : Option String
  friendlyType : Option String
  restricted : Bool
  apiChecksum : Option String
deriving DecidableEq

/-- `DatasetHit` (dataclass in `sources/base.py`): one dataset as returned by
`find` (then `files` is empty) or `fetch_metadata`. -/
structure DatasetHit where
  sourceName : String
  sourceUrl : String
  title : String
  description : String
  authors : String
  licenseType : String
  licenseUrl : String
  datePublished : String
  tags : List String
  keywords : List String
  kindOfData : List String
  language : List String
  software : List String
  geographicCoverage : List String
  depositor : String
  producer : List String
  publication : List String
  dateOfCollection : String
  timePeriodCovered : String
  uploaderName : String
  uploaderEmail : String
  files : List FileInfo
deriving DecidableEq

/-- The free-text `notes` column of a persisted record.  The source stores
strings ("access restricted", "irrelevant file type",
"oversized (... MB)"); we carry them as a datatype, with the oversized note
carrying the declared byte size that the source renders as MB. -/
inductive Notes where
  | accessRestricted
  | irrelevantType
  | oversized (sizeBytes : Nat)
deriving DecidableEq

/-- A persisted `File` row (`harvester/database/models.py` columns as written
by `cli.py`).  Timestamps (`downloaded_at`, `created_at`) are not modelled. -/
structure Rec where
  sourceName : String
  sourceUrl : String
  downloadUrl : String
  fileName : String
  fileType : String
  fileHash : Option String
  fileSizeBytes : Option Nat
  localPath : Option String
  localDirectory : Option String
  licenseType : String
  licenseUrl : String
  title : String
  description : String
  authors : String
  datePublished : String
  tags : Option String
  keywords : Option String
  kindOfData : Option String
  language : Option String
  software : Option String
  geographicCoverage : Option String
  contentType : Option String
  friendlyType : Option String
  restricted : Bool
  apiChecksum : Option String
  depositor : Option String
  producer : Option String
  publication : Option String
  dateOfCollection : Option String
  timePeriodCovered : Option String
  uploaderName : Option String
  uploaderEmail : Option String
  isQdaFile : Bool
  notes : Option Notes
deriving DecidableEq

/-- The record store: the `files` table, in insertion order. -/
abbrev Store := List Rec

/-- Pipeline state: the store plus the set of local file paths on disk. -/
structure PState where
  store : List Rec
  fs : List String
deriving DecidableEq

/-- The `(downloaded, restricted, skipped)` counter triple. -/
structure Counts where
  downloaded : Nat
  restricted : Nat
  skipped : Nat
deriving DecidableEq

instance : Add Counts :=
  ⟨fun a b => ⟨a.downloaded + b.downloaded, a.restricted + b.restricted,
    a.skipped + b.skipped⟩⟩

/-- Outcome of one adapter `pull_file` call as seen by `_process_hits`:
a successful download (with the downloaded byte content), an
`httpx.HTTPStatusError` with a status code, or any other exception. -/
inductive PullResult where
  | ok (content : String)
  | httpError (code : Nat)
  | otherError
deriving DecidableEq

/-- External collaborators and injected configuration of the pipeline: the
source adapter (`fetch_metadata`, `pull_file` keyed by (url, destDir,
filename)), SHA-256 as an abstract function of the downloaded bytes, and the
value sets loaded from `config.yml` (`QDA_FORMATS`, `QUALITATIVE_FORMATS`,
`EXCLUDED_RESOURCE_TYPES`, `RELEVANCE_KEYWORDS`, `FOLDER_NAMES`). -/
structure Env where
  fetchMeta : String → Option DatasetHit
  pull : String → String → String → PullResult
  hash : String → String
  qdaFormats : List String
  qualitativeFormats : List String
  excludedResourceTypes : List String
  relevanceKeywords : List String
  folderNames : List (String × String)

/-! ### Path helpers (`harvester/storage/files.py`, `pathlib`) -/

/-- Final path component (`pathlib.PurePath.name` for simple paths). -/
def pathFileName (s : String) : String :=
  ((s.data.splitOn '/').getLastD []).asString

/-- Index of the last occurrence of `'.'`, scanning from the right
(`str.rfind('.')`). -/
def rfindDot (l : List Char) : Option Nat :=
  match (l.reverse.findIdx? (fun c => c = '.')) with
  | none => none
  | some k => some (l.length - 1 - k)

/-- `pathlib.PurePath.suffix`: the extension of the final component,
including the dot; empty for hidden files, trailing dots, or no dot. -/
def pathSuffix (s : String) : String :=
  let name := pathFileName s
  match rfindDot name.data with
  | some i => if 0 < i ∧ i < name.length - 1 then (name.data.drop i).asString else ""
  | none => ""

/-- Characters kept by `to_slug`'s `[^a-z0-9]+` substitution. -/
def isSlugKeep (c : Char) : Bool := ('a' ≤ c && c ≤ 'z') || ('0' ≤ c && c ≤ '9')

/-- `re.sub(r"[^a-z0-9]+", "-", ·)`: maximal runs of non-alphanumerics
become one dash. -/
def dashRuns : List Char → List Char
  | [] => []
  | [c] => if isSlugKeep c then [c] else ['-']
  | c1 :: c2 :: rest =>
    if !isSlugKeep c1 && !isSlugKeep c2 then dashRuns (c2 :: rest)
    else (if isSlugKeep c1 then c1 else '-') :: dashRuns (c2 :: rest)

/-- `re.sub(r"-{2,}", "-", ·)`: runs of dashes become one dash. -/
def collapseDashes : List Char → List Char
  | [] => []
  | [c] => [c]
  | c1 :: c2 :: rest =>
    if c1 = '-' && c2 = '-' then collapseDashes (c2 :: rest)
    else c1 :: collapseDashes (c2 :: rest)

/-- `collapsed[:60].rsplit('-', 1)[0]`: cut at 60 characters, then drop the
(possibly truncated) fragment after the last dash.  Whole list if no dash. -/
def truncateSlug (l : List Char) : List Char :=
  if l.length > 60 then
    let t := l.take 60
    match t.reverse.findIdx? (fun c => c = '-') with
    | none => t
    | some k => t.take (t.length - 1 - k)
  else l

/-- `to_slug(text, ceiling=60)`: ASCII-fold (NFKD normalisation is the
identity on the ASCII inputs modelled here; non-ASCII characters are
dropped by `encode("ascii", "ignore")`), lower-case, collapse
non-alphanumeric runs to dashes, collapse dash runs, strip dashes,
truncate at a word boundary. -/
def toSlug (text : String) : String :=
  let ascii := text.data.filter (fun c => c.toNat < 128)
  let lowered := ascii.map Char.toLower
  let dashed := dashRuns lowered
  let collapsed := collapseDashes dashed
  let stripped := stripBoth (fun c => c = '-') collapsed
  (truncateSlug stripped).asString

/-- The per-dataset folder of `build_output_path`:
`<slug>-<id>` when the title yields a slug, else just `<id>`. -/
def slugFolder (rid title : String) : String :=
  let slug := if title = "" then "" else toSlug title
  if slug = "" then rid else slug ++ "-" ++ rid

/-- `build_output_path(source_key, record_id, filename, title)`, with the
configured download root rendered as the literal `"downloads"`. -/
def buildOutputPath (sourceKey rid fname title : String) : String :=
  "downloads/" ++ sourceKey ++ "/" ++ slugFolder rid title ++ "/" ++ fname

/-! ### File classifier and store queries (`cli.py`) -/

/-- `_is_qda_file(fname, finfo)`: extension in `QDA_FORMATS`, or the
friendly-type label contains "refi-qda", or the mime string contains
"refiqda" (both case-insensitively via prior lowering). -/
def isQdaFile (env : Env) (fname : String) (finfo : FileInfo) : Bool :=
  let ext := strLower (pathSuffix fname)
  let label := strLower (finfo.friendlyType.getD "")
  let mime := strLower (finfo.contentType.getD "")
  env.qdaFormats.contains ext || strContains "refi-qda" label || strContains "refiqda" mime

/-- `_dataset_has_qda(files)`. -/
def datasetHasQda (env : Env) (files : List FileInfo) : Bool :=
  files.any (fun f => isQdaFile env f.name f)

/-- `session.query(File).filter_by(source_name=…, download_url=…).first()`. -/
def findByUrl (store : List Rec) (sn u : String) : Option Rec :=
  store.find? (fun r => r.sourceName == sn && r.downloadUrl == u)

/-- The duplicate lookup of `_store_metadata_record`:
`filter_by(source_name=…, download_url=…, file_name=…)`. -/
def findByUrlName (store : List Rec) (sn u f : String) : Option Rec :=
  store.find? (fun r => r.sourceName == sn && r.downloadUrl == u && r.fileName == f)

/-- `session.query(File).filter_by(file_hash=digest).first()`. -/
def findByHash (store : List Rec) (h : String) : Option Rec :=
  store.find? (fun r => r.fileHash == some h)

/-! ### Record construction (`cli.py` lines 68–106 and 285–322) -/

/-- Python's `s or None` on a string field. -/
def optOfStr (s : String) : Option String := if s = "" then none else some s

/-- `"; ".join(xs) if xs else None`. -/
def joinOrNone (xs : List String) : Option String :=
  if xs.isEmpty then none else some (String.intercalate "; " xs)

/-- The record built by `_store_metadata_record` (no local file). -/
def mkMetaRec (sourceName : String) (hit meta : DatasetHit) (finfo : FileInfo)
    (fname ext : String) (qdaFlag : Bool) (folder : Option String)
    (notes : Notes) : Rec where
  sourceName := sourceName
  sourceUrl := hit.sourceUrl
  downloadUrl := finfo.downloadUrl
  fileName := fname
  fileType := ext
  fileHash := none
  fileSizeBytes := finfo.size
  localPath := none
  localDirectory := folder
  licenseType := meta.licenseType
  licenseUrl := meta.licenseUrl
  title := meta.title
  description := meta.description
  authors := meta.authors
  datePublished := meta.datePublished
  tags := joinOrNone meta.tags
  keywords := joinOrNone meta.keywords
  kindOfData := joinOrNone meta.kindOfData
  language := joinOrNone meta.language
  software := joinOrNone meta.software
  geographicCoverage := joinOrNone meta.geographicCoverage
  contentType := finfo.contentType
  friendlyType := finfo.friendlyType
  restricted := finfo.restricted
  apiChecksum := finfo.apiChecksum
  depositor := optOfStr meta.depositor
  producer := joinOrNone meta.producer
  publication := joinOrNone meta.publication
  dateOfCollection := optOfStr meta.dateOfCollection
  timePeriodCovered := optOfStr meta.timePeriodCovered
  uploaderName := optOfStr meta.uploaderName
  uploaderEmail := optOfStr meta.uploaderEmail
  isQdaFile := qdaFlag
  notes := some notes

/-- `_store_metadata_record`: dedup by (source, downloadUrl, filename), else
insert.  The Python default `notes="access restricted"` is passed explicitly
by the callers here. -/
def storeMetadataRecord (sourceName : String) (hit meta : DatasetHit)
    (finfo : FileInfo) (fname ext : String) (qdaFlag : Bool)
    (folder : Option String) (notes : Notes) (store : List Rec) : List Rec :=
  if (findByUrlName store sourceName finfo.downloadUrl fname).isSome then store
  else store ++ [mkMetaRec sourceName hit meta finfo fname ext qdaFlag folder notes]

/-! ### Destination paths for one file of one hit (`cli.py` lines 202–212) -/

/-- Remainder of `l` after its first occurrence of `pat`, if any occurs. -/
def afterFirst (pat : List Char) : List Char → Option (List Char)
  | [] => none
  | c :: rest =>
    if pat.isPrefixOf (c :: rest) then some ((c :: rest).drop pat.length)
    else afterFirst pat rest

/-- Iterate `afterFirst` to exhaustion (fuel bounds the occurrence count;
each step over a nonempty pattern strictly shortens the text). -/
def afterLastAux (pat : List Char) : Nat → List Char → List Char
  | 0, l => l
  | fuel + 1, l =>
    match afterFirst pat l with
    | none => l
    | some rest => afterLastAux pat fuel rest

/-- `text.split(pat)[-1]` for a nonempty `pat`: the text after the last
(left-to-right, non-overlapping) occurrence; the whole text if none. -/
def afterLast (pat text : String) : String :=
  (afterLastAux pat.data text.data.length text.data).asString

/-- `persistentId=`-derived record id with `/` and `:` replaced by `_`
(the two single-character `str.replace` calls, written as maps). -/
def recordIdOf (hit : DatasetHit) (finfo : FileInfo) : String :=
  let rid :=
    if strContains "persistentId=" hit.sourceUrl then
      afterLast "persistentId=" hit.sourceUrl
    else finfo.id
  ((rid.data.map (fun c => if c = '/' then '_' else c)).map
      (fun c => if c = ':' then '_' else c)).asString

/-- `FOLDER_NAMES.get(source_name, source_name)`. -/
def dirLabelOf (env : Env) (sourceName : String) : String :=
  (env.folderNames.lookup sourceName).getD sourceName

/-- `dest_path.parent.name`: the per-dataset folder component. -/
def folderNameOf (env : Env) (sourceName : String) (hit meta : DatasetHit)
    (finfo : FileInfo) : String :=
  slugFolder (recordIdOf hit finfo) meta.title

/-- `dest_dir = str(dest_path.parent)`. -/
def destDirOf (env : Env) (sourceName : String) (hit meta : DatasetHit)
    (finfo : FileInfo) : String :=
  "downloads/" ++ dirLabelOf env sourceName ++ "/" ++
    folderNameOf env sourceName hit meta finfo

/-- The local path `pull_file` writes to (`dest_dir` + the given filename);
also the ROOT_DIR-relative string stored in `local_path`. -/
def localPathOf (env : Env) (sourceName : String) (hit meta : DatasetHit)
    (finfo : FileInfo) : String :=
  destDirOf env sourceName hit meta finfo ++ "/" ++ finfo.name

/-- The fully-downloaded record (`cli.py` lines 285–322). -/
def mkDownloadRec (env : Env) (sourceName : String) (hit meta : DatasetHit)
    (finfo : FileInfo) (content : String) : Rec where
  sourceName := sourceName
  sourceUrl := hit.sourceUrl
  downloadUrl := finfo.downloadUrl
  fileName := finfo.name
  fileType := strLower (pathSuffix finfo.name)
  fileHash := some (env.hash content)
  fileSizeBytes := finfo.size
  localPath := some (localPathOf env sourceName hit meta finfo)
  localDirectory := some (folderNameOf env sourceName hit meta finfo)
  licenseType := meta.licenseType
  licenseUrl := meta.licenseUrl
  title := meta.title
  description := meta.description
  authors := meta.authors
  datePublished := meta.datePublished
  tags := joinOrNone meta.tags
  keywords := joinOrNone meta.keywords
  kindOfData := joinOrNone meta.kindOfData
  language := joinOrNone meta.language
  software := joinOrNone meta.software
  geographicCoverage := joinOrNone meta.geographicCoverage
  contentType := finfo.contentType
  friendlyType := finfo.friendlyType
  restricted := finfo.restricted
  apiChecksum := finfo.apiChecksum
  depositor := optOfStr meta.depositor
  producer := joinOrNone meta.producer
  publication := joinOrNone meta.publication
  dateOfCollection := optOfStr meta.dateOfCollection
  timePeriodCovered := optOfStr meta.timePeriodCovered
  uploaderName := optOfStr meta.uploaderName
  uploaderEmail := optOfStr meta.uploaderEmail
  isQdaFile := isQdaFile env finfo.name finfo
  notes := none

/-! ### The per-file admission pipeline (`_process_hits`, inner loop) -/

/-- `100 * 1024 * 1024  # 100 MB` -/
def _DEFAULT_SIZE_CAP : Nat := 100 * 1024 * 1024

/-- Add a path to the filesystem (writing a file; set semantics). -/
def fsAdd (fs : List String) (p : String) : List String :=
  if fs.contains p then fs else fs ++ [p]

/-- `Path(local).unlink(missing_ok=True)`. -/
def fsRemove (fs : List String) (p : String) : List String :=
  fs.filter (fun q => q ≠ p)

/-- One iteration of the `for finfo in meta.files` loop of `_process_hits`
(lines 186–328): the irrelevant-type gate, duplicate-by-URL gate, size-cap
gate, restriction gate, download attempt with 403 reclassification, hash
deduplication, and final insert.  Returns the new state and this file's
counter increments. -/
def processFile (env : Env) (sourceName : String) (sizeCap : Nat)
    (hit meta : DatasetHit) (finfo : FileInfo) (σ : PState) : PState × Counts :=
  let fname := finfo.name
  let fileUrl := finfo.downloadUrl
  let ext := strLower (pathSuffix fname)
  let qdaFlag := isQdaFile env fname finfo
  if !qdaFlag && !(env.qualitativeFormats.contains ext) then
    ({ σ with
        store := storeMetadataRecord sourceName hit meta finfo fname ext qdaFlag
          none Notes.irrelevantType σ.store },
      ⟨0, 0, 0⟩)
  else
    let folderName := folderNameOf env sourceName hit meta finfo
    let destDir := destDirOf env sourceName hit meta finfo
    if (findByUrl σ.store sourceName fileUrl).isSome then (σ, ⟨0, 0, 0⟩)
    else
      let fileBytes := finfo.size.getD 0
      if sizeCap != 0 && fileBytes > sizeCap && !qdaFlag then
        ({ σ with
            store := storeMetadataRecord sourceName hit meta finfo fname ext qdaFlag
              (some folderName) (Notes.oversized fileBytes) σ.store },
          ⟨0, 0, 1⟩)
      else if finfo.restricted then
        ({ σ with
            store := storeMetadataRecord sourceName hit meta finfo fname ext qdaFlag
              (some folderName) Notes.accessRestricted σ.store },
          ⟨0, 1, 0⟩)
      else
        match env.pull fileUrl destDir fname with
        | PullResult.httpError code =>
          if code = 403 then
            ({ σ with
                store := storeMetadataRecord sourceName hit meta finfo fname ext qdaFlag
                  (some folderName) Notes.accessRestricted σ.store },
              ⟨0, 1, 0⟩)
          else (σ, ⟨0, 0, 0⟩)
        | PullResult.otherError => (σ, ⟨0, 0, 0⟩)
        | PullResult.ok content =>
          let localPath := destDir ++ "/" ++ fname
          let fsWritten := fsAdd σ.fs localPath
          let digest := env.hash content
          if (findByHash σ.store digest).isSome then
            (⟨σ.store, fsRemove fsWritten localPath⟩, ⟨0, 0, 0⟩)
          else
            (⟨σ.store ++ [mkDownloadRec env sourceName hit meta finfo content],
                fsWritten⟩,
              ⟨1, 0, 0⟩)

/-- The file loop of `_process_hits` over a whole manifest. -/
def processFiles (env : Env) (sourceName : String) (sizeCap : Nat)
    (hit meta : DatasetHit) : List FileInfo → PState → PState × Counts
  | [], σ => (σ, ⟨0, 0, 0⟩)
  | f :: rest, σ =>
    let r1 := processFile env sourceName sizeCap hit meta f σ
    let r2 := processFiles env sourceName sizeCap hit meta rest r1.1
    (r2.1, r1.2 + r2.2)

/-- The relevance gate's keyword search: description + keywords must
contain a configured relevance keyword (lines 177–180). -/
def relevanceMatch (env : Env) (meta : DatasetHit) : Bool :=
  let combined :=
    strLower meta.description ++
      (if !meta.keywords.isEmpty then
        " " ++ String.intercalate " " (meta.keywords.map strLower)
      else "")
  env.relevanceKeywords.any (fun kw => strContains kw combined)

/-- The resource-type exclusion condition (lines 163–165): `kind_of_data`
nonempty and some stripped, lower-cased kind is in the excluded set. -/
def kindExcluded (env : Env) (meta : DatasetHit) : Bool :=
  !meta.kindOfData.isEmpty &&
    (meta.kindOfData.map (fun v => strLower ((stripBoth isWs v.data).asString))).any
      (fun k => env.excludedResourceTypes.contains k)

/-- One iteration of the hit loop of `_process_hits` (lines 137–328):
metadata fetch, license gate, empty-manifest gate, resource-type gate,
relevance gate, then the file loop. -/
def processHit (env : Env) (sourceName : String) (sizeCap : Nat)
    (hit : DatasetHit) (σ : PState) : PState × Counts :=
  match env.fetchMeta hit.sourceUrl with
  | none => (σ, ⟨0, 0, 0⟩)
  | some meta =>
    if !licenseIsOpen (some meta.licenseType) then (σ, ⟨0, 0, 1⟩)
    else if meta.files.isEmpty then (σ, ⟨0, 0, 0⟩)
    else if kindExcluded env meta && !datasetHasQda env meta.files then (σ, ⟨0, 0, 1⟩)
    else if !datasetHasQda env meta.files && !relevanceMatch env meta then (σ, ⟨0, 0, 1⟩)
    else processFiles env sourceName sizeCap hit meta meta.files σ

/-- `_process_hits(source, source_name, hits, session, size_cap)`. -/
def processHits (env : Env) (sourceName : String) (sizeCap : Nat) :
    List DatasetHit → PState → PState × Counts
  | [], σ => (σ, ⟨0, 0, 0⟩)
  | h :: rest, σ =>
    let r1 := processHit env sourceName sizeCap h σ
    let r2 := processHits env sourceName sizeCap rest r1.1
    (r2.1, r1.2 + r2.2)

/-! ### `DataverseSource.pull_file` retry loop (`sources/dataverse.py`) -/

def _RETRY_LIMIT : Nat := 3

/-- `_INITIAL_BACKOFF = 2.0  # doubled on each subsequent attempt` -/
def _INITIAL_BACKOFF : Nat := 2

/-- What one streaming attempt does: succeeds, raises an HTTP status error
from `raise_for_status` (before any byte is written), or raises a transient
connection error (`ConnectError`/`ReadError`/`ConnectionError`). -/
inductive AttemptOutcome where
  | success
  | httpStatus (code : Nat)
  | transient
deriving DecidableEq

/-- Result of the whole `pull_file` call: which attempt returned or raised,
and the backoff sleeps performed (in seconds, in order). -/
inductive PullOutcome where
  | saved (attempt : Nat) (sleeps : List Nat)
  | httpFail (code : Nat) (attempt : Nat) (sleeps : List Nat)
  | transientFail (attempt : Nat) (sleeps : List Nat)
deriving DecidableEq

/-- The `for attempt in range(1, _RETRY_LIMIT + 1)` loop body: `left` is the
number of attempts still available after the current one (so
`attempt < _RETRY_LIMIT` iff `left > 0`); a transient error with attempts
left sleeps `_INITIAL_BACKOFF * 2**(attempt-1)` and retries, otherwise the
error propagates; an HTTP status error always propagates immediately. -/
def pullGo (oc : Nat → AttemptOutcome) : Nat → Nat → List Nat → PullOutcome
  | attempt, left, sleeps =>
    match oc attempt with
    | AttemptOutcome.success => PullOutcome.saved attempt sleeps.reverse
    | AttemptOutcome.httpStatus code => PullOutcome.httpFail code attempt sleeps.reverse
    | AttemptOutcome.transient =>
      match left with
      | 0 => PullOutcome.transientFail attempt sleeps.reverse
      | left' + 1 =>
        pullGo oc (attempt + 1) left' ((_INITIAL_BACKOFF * 2 ^ (attempt - 1)) :: sleeps)

/-- `DataverseSource.pull_file`'s control flow (attempt 1, with
`_RETRY_LIMIT - 1` retries in reserve). -/
def pullFileRetry (oc : Nat → AttemptOutcome) : PullOutcome :=
  pullGo oc 1 (_RETRY_LIMIT - 1) []

/-! ### The driver `_run_source` (`cli.py` lines 349–390) -/

/-- The driver's search dependency: `source.find(q)`; `none` models a raised
search exception. -/
structure DriverEnv where
  find : String → Option (List DatasetHit)

/-- `if cap: hits = hits[:cap]` (both `None` and `0` are falsy). -/
def capList (cap : Option Nat) (hits : List DatasetHit) : List DatasetHit :=
  match cap with
  | some c => if c ≠ 0 then hits.take c else hits
  | none => hits

/-- The query loop of `_run_source`, additionally returning the trace of hit
lists fed to `_process_hits` (one entry per query; `[]` for a failed search).
The seen-set is updated with every hit that survived the seen-filter,
before the cap truncates the list. -/
def runQueries (env : Env) (denv : DriverEnv) (sourceName : String)
    (cap : Option Nat) (sizeCap : Nat) :
    List String → List String → PState → PState × Counts × List (List DatasetHit)
  | [], _, σ => (σ, ⟨0, 0, 0⟩, [])
  | q :: rest, seen, σ =>
    match denv.find q with
    | none =>
      let r := runQueries env denv sourceName cap sizeCap rest seen σ
      (r.1, r.2.1, [] :: r.2.2)
    | some hits =>
      let fresh := hits.filter (fun h => !(seen.contains h.sourceUrl))
      let seen2 := seen ++ fresh.map (fun h => h.sourceUrl)
      let capped := capList cap fresh
      let r1 := processHits env sourceName sizeCap capped σ
      let r := runQueries env denv sourceName cap sizeCap rest seen2 r1.1
      (r.1, r1.2 + r.2.1, capped :: r.2.2)

/-- `_run_source(source, source_name, queries, cap, size_cap)`: totals over
all queries, starting from an empty seen-set. -/
def runSource (env : Env) (denv : DriverEnv) (sourceName : String)
    (cap : Option Nat) (sizeCap : Nat) (queries : List String) (σ : PState) :
    PState × Counts :=
  let r := runQueries env denv sourceName cap sizeCap queries [] σ
  (r.1, r.2.1)

/-- The trace of hit lists fed to the pipeline, per query. -/
def runSourceTrace (env : Env) (denv : DriverEnv) (sourceName : String)
    (cap : Option Nat) (sizeCap : Nat) (queries : List String) (σ : PState) :
    List (List DatasetHit) :=
  (runQueries env denv sourceName cap sizeCap queries [] σ).2.2

/-! ### Concrete fixtures used by the witnesses -/

/-- A small concrete environment: every pull succeeds with the same bytes. -/
def envW : Env where
  fetchMeta := fun _ => none
  pull := fun _ _ _ => PullResult.ok "BYTES"
  hash := fun c => "H" ++ c
  qdaFormats := [".qdpx"]
  qualitativeFormats := [".qdpx", ".pdf", ".csv"]
  excludedResourceTypes := ["documentation"]
  relevanceKeywords := ["interview"]
  folderNames := [("qdr", "QDR")]

/-- The same environment, but every pull raises HTTP 403. -/
def envW403 : Env := { envW with pull := fun _ _ _ => PullResult.httpError 403 }

/-- The same environment, but every pull raises HTTP 404. -/
def envW404 : Env := { envW with pull := fun _ _ _ => PullResult.httpError 404 }

/-- A QDA project file of 2 KiB. -/
def fileW : FileInfo :=
  ⟨"interview.qdpx", "http://x/f1", "101", some 2048, none, none, false, none⟩

/-- A non-QDA pdf of 200 bytes. -/
def filePdfW : FileInfo :=
  ⟨"big.pdf", "http://x/f2", "102", some 200, none, none, false, none⟩

/-- A second QDA file with different URL and name (same remote content). -/
def fileW2 : FileInfo :=
  ⟨"copy.qdpx", "http://x/zz", "103", some 2048, none, none, false, none⟩

/-- A concrete dataset hit/metadata fixture. -/
def hitW : DatasetHit :=
  ⟨"qdr", "http://ds/1", "Study", "some interviews", "A. B.", "CC BY 4.0", "",
    "2020", [], [], [], [], [], [], "", [], [], "", "", "", "", [fileW]⟩

/-- Driver fixtures: three hits with distinct dataset URLs. -/
def hitU1 : DatasetHit :=
  { hitW with sourceUrl := "u1" }

def hitU2 : DatasetHit :=
  { hitW with sourceUrl := "u2" }

def hitU3 : DatasetHit :=
  { hitW with sourceUrl := "u3" }

/-- A two-query search fixture: the second query's results overlap the
first's. -/
def denvW : DriverEnv :=
  ⟨fun q => if q = "q1" then some [hitU1, hitU2]
    else if q = "q2" then some [hitU2, hitU3] else none⟩

/-! ### Auxiliary notions used by the statements below -/

/-- Wrap a string in an opening and a closing markup tag. -/
def wrapTag (t1 s t2 : String) : String :=
  "<" ++ t1 ++ ">" ++ s ++ "<" ++ t2 ++ ">"

/-- `T` extends `S` by appending records (stores only ever grow). -/
def StoreExt (S T : List Rec) : Prop := ∃ ext, T = S ++ ext

/-- Two records do not both claim the same content hash. -/
def HashOk (a b : Rec) : Prop :=
  a.fileHash = none ∨ b.fileHash = none ∨ a.fileHash ≠ b.fileHash

/-- No two records of the store share a (present) content hash. -/
def hashUniq (S : List Rec) : Prop := List.Pairwise HashOk S

/-- Terminal state "downloaded": a local copy exists. -/
def downloadedShape (r : Rec) : Prop := r.localPath.isSome

/-- Terminal state "restricted": no local copy, and the notes are the
restriction notes (the writer's default, used by the restriction gate and
the 403 reclassification). -/
def restrictedShape (r : Rec) : Prop :=
  r.localPath = none ∧ r.notes = some Notes.accessRestricted

/-- Terminal state "metadata-only": no local copy, notes explain the reason
(irrelevant file type, or oversized with the declared size). -/
def metadataOnlyShape (r : Rec) : Prop :=
  r.localPath = none ∧
    (r.notes = some Notes.irrelevantType ∨ ∃ n, r.notes = some (Notes.oversized n))

/-- Exactly one of the three terminal shapes holds. -/
def exactlyOneShape (r : Rec) : Prop :=
  (downloadedShape r ∧ ¬restrictedShape r ∧ ¬metadataOnlyShape r)
  ∨ (¬downloadedShape r ∧ restrictedShape r ∧ ¬metadataOnlyShape r)
  ∨ (¬downloadedShape r ∧ ¬restrictedShape r ∧ metadataOnlyShape r)

/-- Everything the pipeline guarantees about a record it persists: exactly
one terminal shape; a downloaded record has a content hash and empty notes;
a restricted or metadata-only record has no local copy and no hash. -/
def recShapeOk (r : Rec) : Prop :=
  exactlyOneShape r
  ∧ (downloadedShape r → r.fileHash.isSome = true ∧ r.notes = none)
  ∧ (restrictedShape r ∨ metadataOnlyShape r →
      r.localPath = none ∧ r.fileHash = none)

/-! ## Lemmas -/

/-! ### Generic list helpers -/

theorem map_id_of_mem {f : Char → Char} :
    ∀ {l : List Char}, (∀ c ∈ l, f c = c) → l.map f = l := by
  intro l
  induction l with
  | nil => intro _; rfl
  | cons c r ih =>
    intro h
    have hc := h c (List.mem_cons_self c r)
    simp only [List.map_cons, hc]
    exact congrArg (c :: ·) (ih fun x hx => h x (List.mem_cons_of_mem c hx))

theorem isPrefixOf_self : ∀ (l : List Char), l.isPrefixOf l = true := by
  intro l
  induction l with
  | nil => rfl
  | cons c r ih => simp [List.isPrefixOf, ih]

theorem find?_append_isSome {p : Rec → Bool} {l1 : List Rec}
    (h : (l1.find? p).isSome = true) (l2 : List Rec) :
    ((l1 ++ l2).find? p).isSome = true := by
  rw [List.find?_append]
  cases hf : l1.find? p with
  | none => rw [hf] at h; exact absurd h (by simp)
  | some r => simp [hf]

theorem find?_append_none {p : Rec → Bool} {l1 l2 : List Rec}
    (h : ((l1 ++ l2).find? p) = none) : l1.find? p = none := by
  rw [List.find?_append] at h
  cases hf : l1.find? p with
  | none => rfl
  | some r => rw [hf] at h; simp at h

/-! ### Tag stripping -/

theorem stripTagsSM_id : ∀ {l : List Char}, (∀ c ∈ l, c ≠ '<') →
    stripTagsSM none l = l := by
  intro l
  induction l with
  | nil => intro _; rfl
  | cons c r ih =>
    intro h
    have hc : c ≠ '<' := h c (List.mem_cons_self c r)
    simp only [stripTagsSM, if_neg hc]
    exact congrArg (c :: ·) (ih fun x hx => h x (List.mem_cons_of_mem c hx))

theorem stripTagsSM_close {r : List Char} :
    ∀ (t pend : List Char), (∀ c ∈ t, c ≠ '>') → (pend ≠ [] ∨ t ≠ []) →
      stripTagsSM (some pend) (t ++ '>' :: r) = ' ' :: stripTagsSM none r := by
  intro t
  induction t with
  | nil =>
    intro pend _ hne
    have hp : pend ≠ [] := by
      rcases hne with h | h
      · exact h
      · exact absurd rfl h
    match pend, hp with
    | p :: ps, _ => simp [stripTagsSM]
  | cons c t ih =>
    intro pend hc _
    have hcne : c ≠ '>' := hc c (List.mem_cons_self _ _)
    simp only [List.cons_append, stripTagsSM, if_neg hcne]
    exact ih (c :: pend) (fun x hx => hc x (List.mem_cons_of_mem _ hx))
      (Or.inl (by simp))

theorem stripTagsSM_append {r : List Char} :
    ∀ {s : List Char}, (∀ c ∈ s, c ≠ '<') →
      stripTagsSM none (s ++ r) = s ++ stripTagsSM none r := by
  intro s
  induction s with
  | nil => intro _; rfl
  | cons c t ih =>
    intro h
    have hc : c ≠ '<' := h c (List.mem_cons_self _ _)
    simp only [List.cons_append, stripTagsSM, if_neg hc]
    exact congrArg (c :: ·) (ih fun x hx => h x (List.mem_cons_of_mem _ hx))

/-! ### Whitespace collapsing and stripping -/

theorem collapseWs_id : ∀ {l : List Char}, (∀ c ∈ l, isWs c = true → c = ' ') →
    noAdjSat isWs l = true → collapseWs l = l := by
  intro l
  induction l with
  | nil => intro _ _; rfl
  | cons c t ih =>
    intro h1 h2
    cases t with
    | nil =>
      simp only [collapseWs]
      split
      · next hws => exact congrArg (fun x => [x]) ((h1 c (by simp) hws).symm)
      · rfl
    | cons c2 r =>
      have hadj : ¬(isWs c = true ∧ isWs c2 = true) := by
        intro ⟨ha, hb⟩
        have := h2
        simp only [noAdjSat, Bool.and_eq_true, Bool.not_eq_true'] at this
        rw [ha, hb] at this
        simp at this
      have hcond : ¬(isWs c && isWs c2) = true := by
        simp only [Bool.and_eq_true]
        exact hadj
      have htail : noAdjSat isWs (c2 :: r) = true := by
        simp only [noAdjSat, Bool.and_eq_true] at h2
        exact h2.2
      simp only [collapseWs, if_neg hcond]
      have hrest := ih (fun x hx hw => h1 x (List.mem_cons_of_mem c hx) hw) htail
      rw [hrest]
      congr 1
      split
      · next hws => exact (h1 c (by simp) hws).symm
      · rfl

theorem dropWhile_id_of_head {p : Char → Bool} {l : List Char}
    (h : noHeadSat p l = true) : l.dropWhile p = l := by
  cases l with
  | nil => rfl
  | cons c r =>
    simp only [noHeadSat, Bool.not_eq_true'] at h
    simp [List.dropWhile_cons, h]

theorem dropTrail_cons (p : Char → Bool) (a : Char) (l : List Char) :
    dropTrail p (a :: l) =
      if dropTrail p l = [] then (if p a then [] else [a])
      else a :: dropTrail p l := by
  unfold dropTrail
  rw [show (a :: l).reverse = l.reverse ++ [a] by simp, List.dropWhile_append]
  cases hd : l.reverse.dropWhile p with
  | nil => by_cases hp : p a = true <;> simp [List.dropWhile_cons, hp]
  | cons x xs => simp

theorem dropTrail_id {p : Char → Bool} :
    ∀ {l : List Char}, noTrailSat p l = true → dropTrail p l = l := by
  intro l
  induction l with
  | nil => intro _; rfl
  | cons c t ih =>
    intro h
    cases t with
    | nil =>
      simp only [noTrailSat, Bool.not_eq_true'] at h
      unfold dropTrail
      simp [List.dropWhile_cons, h]
    | cons c2 r =>
      have htail : noTrailSat p (c2 :: r) = true := h
      have hrest := ih htail
      rw [dropTrail_cons, hrest, if_neg (by simp)]

theorem dropTrail_dropWhile_comm (p : Char → Bool) :
    ∀ (l : List Char), dropTrail p (l.dropWhile p) = (dropTrail p l).dropWhile p := by
  intro l
  induction l with
  | nil => rfl
  | cons c r ih =>
    rw [List.dropWhile_cons, dropTrail_cons]
    by_cases hc : p c = true
    · simp only [if_pos hc, ih]
      by_cases hr : dropTrail p r = []
      · simp [hr]
      · simp only [if_neg hr, List.dropWhile_cons, if_pos hc]
    · simp only [if_neg hc]
      by_cases hr : dropTrail p r = []
      · simp only [if_pos hr, dropTrail_cons, if_neg hc]
        simp [List.dropWhile_cons, hc, hr]
      · simp only [if_neg hr, dropTrail_cons]
        simp [List.dropWhile_cons, hc, hr]

theorem dropWhile_collapse_space_cons (l : List Char) :
    (collapseWs (' ' :: l)).dropWhile isWs = (collapseWs l).dropWhile isWs := by
  cases l with
  | nil => rfl
  | cons c r =>
    by_cases hws : isWs c = true
    · have : (isWs ' ' && isWs c) = true := by rw [hws]; decide
      simp only [collapseWs, if_pos this]
    · have : ¬(isWs ' ' && isWs c) = true := by simp [hws]
      simp only [collapseWs, if_neg this]
      have hsp : isWs ' ' = true := by decide
      simp only [if_pos hsp, List.dropWhile_cons, hsp, if_true]

theorem dropTrail_collapse_append_space :
    ∀ (l : List Char),
      dropTrail isWs (collapseWs (l ++ [' '])) = dropTrail isWs (collapseWs l) := by
  intro l
  induction l with
  | nil => rfl
  | cons c t ih =>
    cases t with
    | nil =>
      by_cases hws : isWs c = true
      · have h1 : (isWs c && isWs ' ') = true := by rw [hws]; decide
        simp only [List.cons_append, List.nil_append, collapseWs, if_pos h1, if_pos hws]
        rw [if_pos (show isWs ' ' = true by decide)]
      · have h1 : ¬(isWs c && isWs ' ') = true := by simp [hws]
        simp only [List.cons_append, List.nil_append, collapseWs, if_neg h1, if_neg hws]
        have hsp : isWs ' ' = true := by decide
        rw [if_pos hsp, dropTrail_cons]
        have : dropTrail isWs [' '] = [] := by decide
        rw [if_pos this, if_neg hws]
        have : dropTrail isWs [c] = [c] := by
          unfold dropTrail
          simp [List.dropWhile_cons, hws]
        rw [this]
    | cons c2 r =>
      by_cases h12 : (isWs c && isWs c2) = true
      · have lhs1 : collapseWs ((c :: c2 :: r) ++ [' ']) = collapseWs ((c2 :: r) ++ [' ']) := by
          simp only [List.cons_append, collapseWs, if_pos h12]
          rfl
        have rhs1 : collapseWs (c :: c2 :: r) = collapseWs (c2 :: r) := by
          simp only [collapseWs, if_pos h12]
        rw [lhs1, rhs1, ih]
      · have lhs1 : collapseWs ((c :: c2 :: r) ++ [' ']) =
            (if isWs c then ' ' else c) :: collapseWs ((c2 :: r) ++ [' ']) := by
          simp only [List.cons_append, collapseWs, if_neg h12]
          rfl
        have rhs1 : collapseWs (c :: c2 :: r) =
            (if isWs c then ' ' else c) :: collapseWs (c2 :: r) := by
          simp only [collapseWs, if_neg h12]
        rw [lhs1, rhs1, dropTrail_cons, dropTrail_cons, ih]

theorem stripBoth_pad (s : List Char) :
    stripBoth isWs (collapseWs (' ' :: (s ++ [' ']))) = stripBoth isWs (collapseWs s) := by
  unfold stripBoth
  rw [dropWhile_collapse_space_cons (s ++ [' '])]
  rw [dropTrail_dropWhile_comm, dropTrail_collapse_append_space,
    ← dropTrail_dropWhile_comm]

/-! ### Case/spacing variants: pointwise facts -/

theorem toLower_of_isWs {c : Char} (h : isWs c = true) : c.toLower = c := by
  simp only [isWs, Bool.or_eq_true, decide_eq_true_eq] at h
  rcases h with ((((h | h) | h) | h) | h) | h <;> subst h <;> decide

theorem chVar_of_chCase {mc sc : Char} (h : chCase mc sc = true) :
    chVar mc sc = true := by
  unfold chCase at h
  unfold chVar
  split
  · next hsep =>
    rw [if_pos hsep] at h
    simp only [decide_eq_true_eq] at h
    subst h
    simp only [isSepChar, Bool.or_eq_true, decide_eq_true_eq] at hsep
    rcases hsep with h | h <;> subst h <;> decide
  · next hsep => rw [if_neg hsep] at h; exact h

theorem chVar_ws {mc sc : Char} (h : chVar mc sc = true)
    (hm : isWs mc = true → isSepChar mc = true) (hws : isWs sc = true) :
    isSepChar mc = true ∧ sc = ' ' := by
  unfold chVar at h
  by_cases hsep : isSepChar mc = true
  · rw [if_pos hsep] at h
    simp only [Bool.or_eq_true, decide_eq_true_eq] at h
    rcases h with (h | h) | h
    · subst h; exact absurd hws (by decide)
    · exact ⟨hsep, h⟩
    · subst h; exact absurd hws (by decide)
  · rw [if_neg hsep] at h
    simp only [decide_eq_true_eq] at h
    have hfix := toLower_of_isWs hws
    rw [hfix] at h
    subst h
    exact absurd (hm hws) hsep

theorem chVar_ne_lt {mc sc : Char} (h : chVar mc sc = true) (hmc : mc ≠ '<') :
    sc ≠ '<' := by
  unfold chVar at h
  intro hsc
  subst hsc
  by_cases hsep : isSepChar mc = true
  · rw [if_pos hsep] at h
    exact absurd h (by decide)
  · rw [if_neg hsep] at h
    simp only [decide_eq_true_eq] at h
    exact hmc (by rw [← h]; decide)

theorem chVar_canon {mc sc : Char} (h : chVar mc sc = true) (hmc : mc ≠ '_') :
    canonChar sc = if mc = ' ' then '-' else mc := by
  unfold chVar at h
  by_cases hsep : isSepChar mc = true
  · rw [if_pos hsep] at h
    simp only [Bool.or_eq_true, decide_eq_true_eq] at h
    have hcanon : canonChar sc = '-' := by
      rcases h with (h | h) | h <;> subst h <;> decide
    rw [hcanon]
    simp only [isSepChar, Bool.or_eq_true, decide_eq_true_eq] at hsep
    rcases hsep with h | h <;> subst h
    · rw [if_neg (by decide)]
    · rw [if_pos rfl]
  · rw [if_neg hsep] at h
    simp only [decide_eq_true_eq] at h
    have hmsp : mc ≠ ' ' := by
      intro hc
      exact hsep (by rw [hc]; decide)
    rw [if_neg hmsp]
    unfold canonChar
    rw [h]
    simp only [if_neg hmsp, if_neg hmc]

theorem chCase_lower {mc sc : Char} (h : chCase mc sc = true)
    (hm : isSepChar mc = true → mc.toLower = mc) : sc.toLower = mc := by
  unfold chCase at h
  by_cases hsep : isSepChar mc = true
  · rw [if_pos hsep] at h
    simp only [decide_eq_true_eq] at h
    subst h
    exact hm hsep
  · rw [if_neg hsep] at h
    simpa using h

/-! ### Case/spacing variants: list-level transfer -/

theorem listVar_nil_left {s : List Char} (h : listVar [] s = true) : s = [] := by
  cases s with
  | nil => rfl
  | cons c r => simp [listVar] at h

theorem listVar_cons_left {mc : Char} {ms s : List Char}
    (h : listVar (mc :: ms) s = true) :
    ∃ sc ss, s = sc :: ss ∧ chVar mc sc = true ∧ listVar ms ss = true := by
  cases s with
  | nil => simp [listVar] at h
  | cons sc ss =>
    simp only [listVar, Bool.and_eq_true] at h
    exact ⟨sc, ss, rfl, h.1, h.2⟩

theorem listCase_var : ∀ {m s : List Char}, listCase m s = true → listVar m s = true := by
  intro m
  induction m with
  | nil =>
    intro s h
    cases s with
    | nil => rfl
    | cons c r => simp [listCase] at h
  | cons mc ms ih =>
    intro s h
    cases s with
    | nil => simp [listCase] at h
    | cons sc ss =>
      simp only [listCase, Bool.and_eq_true] at h
      simp only [listVar, Bool.and_eq_true]
      exact ⟨chVar_of_chCase h.1, ih h.2⟩

theorem listVar_ne_nil {m s : List Char} (hv : listVar m s = true) (hm : m ≠ []) :
    s ≠ [] := by
  cases m with
  | nil => exact absurd rfl hm
  | cons mc ms =>
    obtain ⟨sc, ss, rfl, _, _⟩ := listVar_cons_left hv
    simp

theorem listVar_no_lt : ∀ {m s : List Char}, listVar m s = true →
    (∀ c ∈ m, c ≠ '<') → ∀ c ∈ s, c ≠ '<' := by
  intro m
  induction m with
  | nil =>
    intro s hv _
    rw [listVar_nil_left hv]
    intro c hc
    simp at hc
  | cons mc ms ih =>
    intro s hv hm
    obtain ⟨sc, ss, rfl, hch, htl⟩ := listVar_cons_left hv
    intro c hc
    rcases List.mem_cons.mp hc with rfl | hc
    · exact chVar_ne_lt hch (hm mc (List.mem_cons_self _ _))
    · exact ih htl (fun x hx => hm x (List.mem_cons_of_mem _ hx)) c hc

theorem listVar_ws_space : ∀ {m s : List Char}, listVar m s = true →
    (∀ c ∈ m, isWs c = true → isSepChar c = true) →
    ∀ c ∈ s, isWs c = true → c = ' ' := by
  intro m
  induction m with
  | nil =>
    intro s hv _
    rw [listVar_nil_left hv]
    intro c hc
    simp at hc
  | cons mc ms ih =>
    intro s hv hm
    obtain ⟨sc, ss, rfl, hch, htl⟩ := listVar_cons_left hv
    intro c hc hws
    rcases List.mem_cons.mp hc with rfl | hc
    · exact (chVar_ws hch (hm mc (List.mem_cons_self _ _)) hws).2
    · exact ih htl (fun x hx => hm x (List.mem_cons_of_mem _ hx)) c hc hws

theorem listVar_noHead {m s : List Char} (hv : listVar m s = true)
    (hm : ∀ c ∈ m, isWs c = true → isSepChar c = true)
    (hh : noHeadSat isSepWsChar m = true) : noHeadSat isWs s = true := by
  cases m with
  | nil => rw [listVar_nil_left hv]; rfl
  | cons mc ms =>
    obtain ⟨sc, ss, rfl, hch, _⟩ := listVar_cons_left hv
    simp only [noHeadSat, Bool.not_eq_true'] at hh ⊢
    by_contra hcon
    rw [Bool.not_eq_false] at hcon
    have := chVar_ws hch (hm mc (List.mem_cons_self _ _)) hcon
    rw [isSepWsChar] at hh
    simp [this.1] at hh

theorem listVar_noTrail : ∀ {m s : List Char}, listVar m s = true →
    (∀ c ∈ m, isWs c = true → isSepChar c = true) →
    noTrailSat isSepWsChar m = true → noTrailSat isWs s = true := by
  intro m
  induction m with
  | nil =>
    intro s hv _ _
    rw [listVar_nil_left hv]
    rfl
  | cons mc ms ih =>
    intro s hv hm ht
    obtain ⟨sc, ss, rfl, hch, htl⟩ := listVar_cons_left hv
    cases ms with
    | nil =>
      rw [listVar_nil_left htl]
      simp only [noTrailSat, Bool.not_eq_true'] at ht ⊢
      by_contra hcon
      rw [Bool.not_eq_false] at hcon
      have := chVar_ws hch (hm mc (List.mem_cons_self _ _)) hcon
      rw [isSepWsChar] at ht
      simp [this.1] at ht
    | cons mc2 ms2 =>
      obtain ⟨sc2, ss2, rfl, _, _⟩ := listVar_cons_left htl
      have ht2 : noTrailSat isSepWsChar (mc2 :: ms2) = true := ht
      show noTrailSat isWs (sc2 :: ss2) = true
      exact ih htl (fun x hx => hm x (List.mem_cons_of_mem _ hx)) ht2

theorem listVar_noAdj : ∀ {m s : List Char}, listVar m s = true →
    (∀ c ∈ m, isWs c = true → isSepChar c = true) →
    noAdjSat isSepWsChar m = true → noAdjSat isWs s = true := by
  intro m
  induction m with
  | nil =>
    intro s hv _ _
    rw [listVar_nil_left hv]
    rfl
  | cons mc ms ih =>
    intro s hv hm ha
    obtain ⟨sc, ss, rfl, hch, htl⟩ := listVar_cons_left hv
    cases ms with
    | nil =>
      rw [listVar_nil_left htl]
      rfl
    | cons mc2 ms2 =>
      obtain ⟨sc2, ss2, rfl, hch2, htl2⟩ := listVar_cons_left htl
      simp only [noAdjSat, Bool.and_eq_true] at ha ⊢
      refine ⟨?_, ih htl (fun x hx => hm x (List.mem_cons_of_mem _ hx)) ha.2⟩
      cases hb : (isWs sc && isWs sc2) with
      | false => rfl
      | true =>
        exfalso
        have hb2 := hb
        simp only [Bool.and_eq_true] at hb2
        obtain ⟨hws1, hws2⟩ := hb2
        have h1 := (chVar_ws hch (hm mc (List.mem_cons_self _ _)) hws1).1
        have h2 := (chVar_ws hch2 (hm mc2 (by simp)) hws2).1
        have hboth : (isSepWsChar mc && isSepWsChar mc2) = true := by
          simp [isSepWsChar, h1, h2]
        have hneg := ha.1
        rw [hboth] at hneg
        simp at hneg

theorem listVar_canon : ∀ {m s : List Char}, listVar m s = true →
    (∀ c ∈ m, c ≠ '_') →
    s.map canonChar = m.map (fun c => if c = ' ' then '-' else c) := by
  intro m
  induction m with
  | nil =>
    intro s hv _
    rw [listVar_nil_left hv]
    rfl
  | cons mc ms ih =>
    intro s hv hm
    obtain ⟨sc, ss, rfl, hch, htl⟩ := listVar_cons_left hv
    simp only [List.map_cons]
    rw [chVar_canon hch (hm mc (List.mem_cons_self _ _)),
      ih htl (fun x hx => hm x (List.mem_cons_of_mem _ hx))]

theorem listCase_lower : ∀ {m s : List Char}, listCase m s = true →
    (∀ c ∈ m, isSepChar c = true → c.toLower = c) →
    s.map Char.toLower = m := by
  intro m
  induction m with
  | nil =>
    intro s hc _
    rw [listVar_nil_left (listCase_var hc)]
    rfl
  | cons mc ms ih =>
    intro s hc hm
    obtain ⟨sc, ss, rfl, _, _⟩ := listVar_cons_left (listCase_var hc)
    have hc2 := hc
    simp only [listCase, Bool.and_eq_true] at hc2
    simp only [List.map_cons]
    rw [chCase_lower hc2.1 (hm mc (List.mem_cons_self _ _)),
      ih hc2.2 (fun x hx => hm x (List.mem_cons_of_mem _ hx))]

theorem memberShape_props {m : List Char} (h : memberShape m = true) :
    m ≠ [] ∧ (∀ c ∈ m, c ≠ '<') ∧ (∀ c ∈ m, c ≠ '_') ∧
      (∀ c ∈ m, isWs c = true → isSepChar c = true) ∧
      noHeadSat isSepWsChar m = true ∧ noTrailSat isSepWsChar m = true ∧
      noAdjSat isSepWsChar m = true := by
  unfold memberShape at h
  simp only [Bool.and_eq_true, List.all_eq_true] at h
  obtain ⟨⟨⟨⟨hne, hall⟩, hh⟩, ht⟩, ha⟩ := h
  refine ⟨?_, ?_, ?_, ?_, hh, ht, ha⟩
  · intro hcon
    subst hcon
    simp at hne
  · intro c hc
    have := hall c hc
    simp only [Bool.and_eq_true, decide_eq_true_eq] at this
    exact this.1.1
  · intro c hc
    have := hall c hc
    simp only [Bool.and_eq_true, decide_eq_true_eq] at this
    exact this.1.2
  · intro c hc hws
    have := hall c hc
    simp only [Bool.and_eq_true, Bool.or_eq_true, Bool.not_eq_true'] at this
    rcases this.2 with hfalse | hsep
    · rw [hws] at hfalse
      exact absurd hfalse (by simp)
    · exact hsep

theorem accepted_shapes : ∀ m ∈ _ACCEPTED, memberShape m.data = true := by decide

theorem cleanChars_of_var {m s : List Char} (hv : listVar m s = true)
    (hm : memberShape m = true) : cleanChars s = s := by
  obtain ⟨_, hlt, _, hws, hh, ht, ha⟩ := memberShape_props hm
  unfold cleanChars
  rw [stripTagsSM_id (listVar_no_lt hv hlt)]
  rw [collapseWs_id (listVar_ws_space hv hws) (listVar_noAdj hv hws ha)]
  unfold stripBoth
  rw [dropWhile_id_of_head (listVar_noHead hv hws hh)]
  exact dropTrail_id (listVar_noTrail hv hws ht)

theorem string_ne_empty_of_data {s : String} (h : s.data ≠ []) : s ≠ "" := by
  intro hc
  subst hc
  exact h rfl

/-! ## Claim C3: license classifier acceptance -/

/-- C3 counterexample: the claim "for every member of the allow-list and
every case and spacing variant of it (spaces or underscores in place of the
canonical separators), `license_is_open` returns true" fails at the
underscore variant `"public_domain"` of the member `"public domain"`:
canonicalization yields `"public-domain"`, which neither starts with the
(space-separated) accepted prefix nor contains any open phrase. -/
theorem c3_counterexample :
    "public domain" ∈ _ACCEPTED
    ∧ listVar ("public domain").data ("public_domain").data = true
    ∧ licenseIsOpen (some "public_domain") = false := by decide

/-- C3 (amended): every case/spacing variant of an allow-list member whose
canonical form has no space separator is accepted; for the one
space-separated member, `"public domain"`, every pure case variant (spaces
kept) is accepted, but its underscore/hyphen spacing variants are not
(see the counterexample); `None` and the empty string are rejected. -/
theorem c3_license_allowlist_variants :
    (∀ m ∈ _ACCEPTED, ∀ s : String, listVar m.data s.data = true →
        (∀ c ∈ m.data, c ≠ ' ') → licenseIsOpen (some s) = true)
    ∧ (∀ s : String, listCase ("public domain").data s.data = true →
        licenseIsOpen (some s) = true)
    ∧ licenseIsOpen none = false
    ∧ licenseIsOpen (some "") = false := by
  refine ⟨?_, ?_, rfl, rfl⟩
  · intro m hm s hv hns
    have hshape := accepted_shapes m hm
    have hprops := memberShape_props hshape
    have hsne : s ≠ "" :=
      string_ne_empty_of_data (listVar_ne_nil hv hprops.1)
    show (if s = "" then false else openFromCleaned (cleanChars s.data)) = true
    rw [if_neg hsne]
    unfold openFromCleaned
    rw [cleanChars_of_var hv hshape]
    rw [listVar_canon hv hprops.2.2.1]
    have hid : m.data.map (fun c => if c = ' ' then '-' else c) = m.data :=
      map_id_of_mem (fun c hc => if_neg (hns c hc))
    rw [hid]
    have hany : _ACCEPTED.any (fun p => p.data.isPrefixOf m.data) = true :=
      List.any_eq_true.mpr ⟨m, hm, isPrefixOf_self m.data⟩
    rw [if_pos hany]
  · intro s hcase
    have hv := listCase_var hcase
    have hshape : memberShape ("public domain").data = true := by decide
    have hprops := memberShape_props hshape
    have hsne : s ≠ "" :=
      string_ne_empty_of_data (listVar_ne_nil hv hprops.1)
    show (if s = "" then false else openFromCleaned (cleanChars s.data)) = true
    rw [if_neg hsne]
    unfold openFromCleaned
    rw [cleanChars_of_var hv hshape]
    have hlow : s.data.map Char.toLower = ("public domain").data :=
      listCase_lower hcase (by decide)
    by_cases hpre :
        (_ACCEPTED.any (fun p => p.data.isPrefixOf (s.data.map canonChar))) = true
    · rw [if_pos hpre]
    · rw [if_neg hpre, hlow]
      exact List.any_eq_true.mpr ⟨"public domain", by decide, by decide⟩

/-- C3 witness: the underscore variant of `"cc-by"` and the all-caps space
variant of `"public domain"` are both accepted. -/
theorem c3_witness :
    listVar ("cc-by").data ("CC_BY").data = true
    ∧ licenseIsOpen (some "CC_BY") = true
    ∧ listCase ("public domain").data ("Public DOMAIN").data = true
    ∧ licenseIsOpen (some "Public DOMAIN") = true :=
  ⟨by decide,
    c3_license_allowlist_variants.1 "cc-by" (by decide) "CC_BY" (by decide) (by decide),
    by decide,
    c3_license_allowlist_variants.2.1 "Public DOMAIN" (by decide)⟩

/-! ## Claim C9: HTML-stripping invariance -/

/-- C9 counterexample: invariance under HTML wrapping fails for inputs that
themselves contain `'<'`.  `"x<cc by"` is accepted (the phrase "cc by" is a
substring), but wrapping it as `"<p>x<cc by</p>"` makes the stripper consume
`"<cc by</p>"` as one tag, leaving only `"x"`, which is rejected. -/
theorem c9_counterexample :
    wrapTag "p" "x<cc by" "/p" = "<p>x<cc by</p>"
    ∧ licenseIsOpen (some "x<cc by") = true
    ∧ licenseIsOpen (some "<p>x<cc by</p>") = false := by
  refine ⟨by decide, by decide, by decide⟩

/-- C9 (amended): for every license string containing no `'<'`, wrapping it
in a (nonempty, `'>'`-free) opening and closing tag that the classifier
strips yields the same classification as the unwrapped input. -/
theorem c9_html_wrap_invariance (t1 s t2 : String)
    (hs : ∀ c ∈ s.data, c ≠ '<')
    (h1 : t1.data ≠ []) (h1g : ∀ c ∈ t1.data, c ≠ '>')
    (h2 : t2.data ≠ []) (h2g : ∀ c ∈ t2.data, c ≠ '>') :
    licenseIsOpen (some (wrapTag t1 s t2)) = licenseIsOpen (some s) := by
  have hwdata : (wrapTag t1 s t2).data =
      '<' :: (t1.data ++ ('>' :: (s.data ++ ('<' :: (t2.data ++ ['>']))))) := by
    unfold wrapTag
    simp [String.data_append]
  have hne : (wrapTag t1 s t2) ≠ "" := by
    apply string_ne_empty_of_data
    rw [hwdata]
    simp
  have hsm : stripTagsSM none (wrapTag t1 s t2).data =
      ' ' :: (s.data ++ [' ']) := by
    rw [hwdata]
    have h0 : stripTagsSM none
        ('<' :: (t1.data ++ ('>' :: (s.data ++ ('<' :: (t2.data ++ ['>'])))))) =
        stripTagsSM (some []) (t1.data ++ ('>' :: (s.data ++ ('<' :: (t2.data ++ ['>']))))) := by
      simp [stripTagsSM]
    rw [h0, stripTagsSM_close t1.data [] h1g (Or.inr h1)]
    rw [stripTagsSM_append hs]
    have h3 : stripTagsSM none ('<' :: (t2.data ++ ['>'])) =
        stripTagsSM (some []) (t2.data ++ ['>']) := by
      simp [stripTagsSM]
    have h4 : t2.data ++ ['>'] = t2.data ++ ('>' :: ([] : List Char)) := rfl
    rw [h3, h4, stripTagsSM_close t2.data [] h2g (Or.inr h2)]
    rfl
  have hcleanw : cleanChars (wrapTag t1 s t2).data =
      stripBoth isWs (collapseWs s.data) := by
    unfold cleanChars
    rw [hsm]
    exact stripBoth_pad s.data
  have hcleans : cleanChars s.data = stripBoth isWs (collapseWs s.data) := by
    unfold cleanChars
    rw [stripTagsSM_id hs]
  by_cases hse : s = ""
  · subst hse
    show (if wrapTag t1 "" t2 = "" then false
          else openFromCleaned (cleanChars (wrapTag t1 "" t2).data))
        = (if ("" : String) = "" then false
          else openFromCleaned (cleanChars ("" : String).data))
    rw [if_neg hne, if_pos rfl, hcleanw]
    decide
  · show (if wrapTag t1 s t2 = "" then false else openFromCleaned (cleanChars (wrapTag t1 s t2).data))
        = (if s = "" then false else openFromCleaned (cleanChars s.data))
    rw [if_neg hne, if_neg hse, hcleanw, hcleans]

/-- C9 witness: wrapping `"CC BY 4.0"` in `<p>…</p>` does not change the
classification (both accepted). -/
theorem c9_witness :
    (∀ c ∈ ("CC BY 4.0").data, c ≠ '<')
    ∧ licenseIsOpen (some (wrapTag "p" "CC BY 4.0" "/p"))
        = licenseIsOpen (some "CC BY 4.0") :=
  ⟨by decide,
    c9_html_wrap_invariance "p" "CC BY 4.0" "/p" (by decide) (by decide)
      (by decide) (by decide) (by decide)⟩

/-! ## Pipeline lemmas: store queries -/

theorem opt_none_of_isSome_false {α : Type} {o : Option α}
    (h : o.isSome = false) : o = none := by
  cases o with
  | none => rfl
  | some a => simp at h

theorem findByUrl_mono {S : List Rec} {sn u : String}
    (h : (findByUrl S sn u).isSome = true) (ext : List Rec) :
    (findByUrl (S ++ ext) sn u).isSome = true :=
  find?_append_isSome h ext

theorem findByUrlName_mono {S : List Rec} {sn u f : String}
    (h : (findByUrlName S sn u f).isSome = true) (ext : List Rec) :
    (findByUrlName (S ++ ext) sn u f).isSome = true :=
  find?_append_isSome h ext

theorem findByHash_mono {S : List Rec} {d : String}
    (h : (findByHash S d).isSome = true) (ext : List Rec) :
    (findByHash (S ++ ext) d).isSome = true :=
  find?_append_isSome h ext

theorem findByUrlName_none {S : List Rec} {sn u f : String}
    (h : findByUrl S sn u = none) : findByUrlName S sn u f = none := by
  unfold findByUrl at h
  unfold findByUrlName
  rw [List.find?_eq_none] at h ⊢
  intro r hr hp
  apply h r hr
  simp only [Bool.and_eq_true] at hp ⊢
  exact hp.1

theorem findByUrl_isSome_of_mem {S : List Rec} {r : Rec} {sn u : String}
    (hr : r ∈ S) (h1 : r.sourceName = sn) (h2 : r.downloadUrl = u) :
    (findByUrl S sn u).isSome = true := by
  unfold findByUrl
  rw [List.find?_isSome]
  exact ⟨r, hr, by simp [h1, h2]⟩

theorem findByUrlName_isSome_of_mem {S : List Rec} {r : Rec} {sn u f : String}
    (hr : r ∈ S) (h1 : r.sourceName = sn) (h2 : r.downloadUrl = u)
    (h3 : r.fileName = f) : (findByUrlName S sn u f).isSome = true := by
  unfold findByUrlName
  rw [List.find?_isSome]
  exact ⟨r, hr, by simp [h1, h2, h3]⟩

theorem storeExt_refl (S : List Rec) : StoreExt S S := ⟨[], by simp⟩

theorem storeExt_trans {S T U : List Rec} (h1 : StoreExt S T)
    (h2 : StoreExt T U) : StoreExt S U := by
  obtain ⟨e1, rfl⟩ := h1
  obtain ⟨e2, rfl⟩ := h2
  exact ⟨e1 ++ e2, by simp⟩

theorem storeExt_append (S ext : List Rec) : StoreExt S (S ++ ext) := ⟨ext, rfl⟩

theorem storeMetadataRecord_ext (sn : String) (hit meta : DatasetHit)
    (finfo : FileInfo) (fname ext : String) (q : Bool) (folder : Option String)
    (notes : Notes) (S : List Rec) :
    StoreExt S (storeMetadataRecord sn hit meta finfo fname ext q folder notes S) := by
  unfold storeMetadataRecord
  split
  · exact storeExt_refl S
  · exact storeExt_append S _

/-! ## processFile branch equations -/

theorem pf_eq_irrelevant (env : Env) (sn : String) (sc : Nat)
    (hit meta : DatasetHit) (f : FileInfo) (σ : PState)
    (hA : (!isQdaFile env f.name f
        && !(env.qualitativeFormats.contains (strLower (pathSuffix f.name)))) = true) :
    processFile env sn sc hit meta f σ =
      (⟨storeMetadataRecord sn hit meta f f.name
          (strLower (pathSuffix f.name)) (isQdaFile env f.name f) none
          Notes.irrelevantType σ.store, σ.fs⟩, ⟨0, 0, 0⟩) := by
  simp only [processFile, hA]
  simp

theorem pf_eq_dup (env : Env) (sn : String) (sc : Nat)
    (hit meta : DatasetHit) (f : FileInfo) (σ : PState)
    (hA : (!isQdaFile env f.name f
        && !(env.qualitativeFormats.contains (strLower (pathSuffix f.name)))) = false)
    (hB : (findByUrl σ.store sn f.downloadUrl).isSome = true) :
    processFile env sn sc hit meta f σ = (σ, ⟨0, 0, 0⟩) := by
  simp only [processFile, hA, hB]
  simp

theorem pf_eq_oversized (env : Env) (sn : String) (sc : Nat)
    (hit meta : DatasetHit) (f : FileInfo) (σ : PState)
    (hA : (!isQdaFile env f.name f
        && !(env.qualitativeFormats.contains (strLower (pathSuffix f.name)))) = false)
    (hB : (findByUrl σ.store sn f.downloadUrl).isSome = false)
    (hC : (sc != 0 && f.size.getD 0 > sc && !isQdaFile env f.name f) = true) :
    processFile env sn sc hit meta f σ =
      (⟨storeMetadataRecord sn hit meta f f.name
          (strLower (pathSuffix f.name)) (isQdaFile env f.name f)
          (some (folderNameOf env sn hit meta f))
          (Notes.oversized (f.size.getD 0)) σ.store, σ.fs⟩, ⟨0, 0, 1⟩) := by
  simp only [processFile, hA, hB, hC]
  simp

theorem pf_eq_restricted (env : Env) (sn : String) (sc : Nat)
    (hit meta : DatasetHit) (f : FileInfo) (σ : PState)
    (hA : (!isQdaFile env f.name f
        && !(env.qualitativeFormats.contains (strLower (pathSuffix f.name)))) = false)
    (hB : (findByUrl σ.store sn f.downloadUrl).isSome = false)
    (hC : (sc != 0 && f.size.getD 0 > sc && !isQdaFile env f.name f) = false)
    (hD : f.restricted = true) :
    processFile env sn sc hit meta f σ =
      (⟨storeMetadataRecord sn hit meta f f.name
          (strLower (pathSuffix f.name)) (isQdaFile env f.name f)
          (some (folderNameOf env sn hit meta f))
          Notes.accessRestricted σ.store, σ.fs⟩, ⟨0, 1, 0⟩) := by
  simp only [processFile, hA, hB, hC, hD]
  simp

theorem pf_eq_pull403 (env : Env) (sn : String) (sc : Nat)
    (hit meta : DatasetHit) (f : FileInfo) (σ : PState)
    (hA : (!isQdaFile env f.name f
        && !(env.qualitativeFormats.contains (strLower (pathSuffix f.name)))) = false)
    (hB : (findByUrl σ.store sn f.downloadUrl).isSome = false)
    (hC : (sc != 0 && f.size.getD 0 > sc && !isQdaFile env f.name f) = false)
    (hD : f.restricted = false)
    (hP : env.pull f.downloadUrl (destDirOf env sn hit meta f) f.name
        = PullResult.httpError 403) :
    processFile env sn sc hit meta f σ =
      (⟨storeMetadataRecord sn hit meta f f.name
          (strLower (pathSuffix f.name)) (isQdaFile env f.name f)
          (some (folderNameOf env sn hit meta f))
          Notes.accessRestricted σ.store, σ.fs⟩, ⟨0, 1, 0⟩) := by
  simp only [processFile, hA, hB, hC, hD, hP]
  simp

theorem pf_eq_pullHttpOther (env : Env) (sn : String) (sc : Nat)
    (hit meta : DatasetHit) (f : FileInfo) (σ : PState) (code : Nat)
    (hA : (!isQdaFile env f.name f
        && !(env.qualitativeFormats.contains (strLower (pathSuffix f.name)))) = false)
    (hB : (findByUrl σ.store sn f.downloadUrl).isSome = false)
    (hC : (sc != 0 && f.size.getD 0 > sc && !isQdaFile env f.name f) = false)
    (hD : f.restricted = false)
    (hP : env.pull f.downloadUrl (destDirOf env sn hit meta f) f.name
        = PullResult.httpError code)
    (hcode : code ≠ 403) :
    processFile env sn sc hit meta f σ = (σ, ⟨0, 0, 0⟩) := by
  simp only [processFile, hA, hB, hC, hD, hP]
  simp [hcode]

theorem pf_eq_pullOther (env : Env) (sn : String) (sc : Nat)
    (hit meta : DatasetHit) (f : FileInfo) (σ : PState)
    (hA : (!isQdaFile env f.name f
        && !(env.qualitativeFormats.contains (strLower (pathSuffix f.name)))) = false)
    (hB : (findByUrl σ.store sn f.downloadUrl).isSome = false)
    (hC : (sc != 0 && f.size.getD 0 > sc && !isQdaFile env f.name f) = false)
    (hD : f.restricted = false)
    (hP : env.pull f.downloadUrl (destDirOf env sn hit meta f) f.name
        = PullResult.otherError) :
    processFile env sn sc hit meta f σ = (σ, ⟨0, 0, 0⟩) := by
  simp only [processFile, hA, hB, hC, hD, hP]
  simp

theorem pf_eq_hashDup (env : Env) (sn : String) (sc : Nat)
    (hit meta : DatasetHit) (f : FileInfo) (σ : PState) (content : String)
    (hA : (!isQdaFile env f.name f
        && !(env.qualitativeFormats.contains (strLower (pathSuffix f.name)))) = false)
    (hB : (findByUrl σ.store sn f.downloadUrl).isSome = false)
    (hC : (sc != 0 && f.size.getD 0 > sc && !isQdaFile env f.name f) = false)
    (hD : f.restricted = false)
    (hP : env.pull f.downloadUrl (destDirOf env sn hit meta f) f.name
        = PullResult.ok content)
    (hE : (findByHash σ.store (env.hash content)).isSome = true) :
    processFile env sn sc hit meta f σ =
      (⟨σ.store, fsRemove (fsAdd σ.fs (localPathOf env sn hit meta f))
          (localPathOf env sn hit meta f)⟩, ⟨0, 0, 0⟩) := by
  simp only [processFile, hA, hB, hC, hD, hP, hE]
  simp [localPathOf]

theorem pf_eq_download (env : Env) (sn : String) (sc : Nat)
    (hit meta : DatasetHit) (f : FileInfo) (σ : PState) (content : String)
    (hA : (!isQdaFile env f.name f
        && !(env.qualitativeFormats.contains (strLower (pathSuffix f.name)))) = false)
    (hB : (findByUrl σ.store sn f.downloadUrl).isSome = false)
    (hC : (sc != 0 && f.size.getD 0 > sc && !isQdaFile env f.name f) = false)
    (hD : f.restricted = false)
    (hP : env.pull f.downloadUrl (destDirOf env sn hit meta f) f.name
        = PullResult.ok content)
    (hE : (findByHash σ.store (env.hash content)).isSome = false) :
    processFile env sn sc hit meta f σ =
      (⟨σ.store ++ [mkDownloadRec env sn hit meta f content],
          fsAdd σ.fs (localPathOf env sn hit meta f)⟩, ⟨1, 0, 0⟩) := by
  simp only [processFile, hA, hB, hC, hD, hP, hE]
  simp [localPathOf]

/-! ## Settledness: a file already processed against a store never changes an
extension of that store, and contributes zero counts on a re-run -/

theorem bool_false {b : Bool} (h : ¬ b = true) : b = false := by
  cases b with
  | false => rfl
  | true => exact absurd rfl h

theorem storeMetadataRecord_id {sn : String} {hit meta : DatasetHit}
    {finfo : FileInfo} {fname ext2 : String} {q : Bool} {folder : Option String}
    {notes : Notes} {T : List Rec}
    (h : (findByUrlName T sn finfo.downloadUrl fname).isSome = true) :
    storeMetadataRecord sn hit meta finfo fname ext2 q folder notes T = T := by
  unfold storeMetadataRecord
  rw [if_pos h]

theorem storeMetadataRecord_insert {sn : String} {hit meta : DatasetHit}
    {finfo : FileInfo} {fname ext2 : String} {q : Bool} {folder : Option String}
    {notes : Notes} {S : List Rec}
    (h : findByUrlName S sn finfo.downloadUrl fname = none) :
    storeMetadataRecord sn hit meta finfo fname ext2 q folder notes S =
      S ++ [mkMetaRec sn hit meta finfo fname ext2 q folder notes] := by
  unfold storeMetadataRecord
  rw [if_neg (by rw [h]; simp)]

theorem findByUrlName_after_writer {sn : String} {hit meta : DatasetHit}
    {finfo : FileInfo} {fname ext2 : String} {q : Bool} {folder : Option String}
    {notes : Notes} {S T : List Rec}
    (hT : StoreExt (storeMetadataRecord sn hit meta finfo fname ext2 q folder notes S) T) :
    (findByUrlName T sn finfo.downloadUrl fname).isSome = true := by
  obtain ⟨e, rfl⟩ := hT
  by_cases hW : (findByUrlName S sn finfo.downloadUrl fname).isSome = true
  · rw [storeMetadataRecord_id hW]
    exact findByUrlName_mono hW e
  · rw [storeMetadataRecord_insert (opt_none_of_isSome_false (bool_false hW))]
    exact findByUrlName_isSome_of_mem
      (show mkMetaRec sn hit meta finfo fname ext2 q folder notes ∈ _ by simp)
      rfl rfl rfl

theorem findByUrl_after_writer {sn : String} {hit meta : DatasetHit}
    {finfo : FileInfo} {fname ext2 : String} {q : Bool} {folder : Option String}
    {notes : Notes} {S T : List Rec}
    (hT : StoreExt (storeMetadataRecord sn hit meta finfo fname ext2 q folder notes S) T)
    (hB : (findByUrl S sn finfo.downloadUrl).isSome = false) :
    (findByUrl T sn finfo.downloadUrl).isSome = true := by
  obtain ⟨e, rfl⟩ := hT
  have hWn : findByUrlName S sn finfo.downloadUrl fname = none :=
    findByUrlName_none (opt_none_of_isSome_false hB)
  rw [storeMetadataRecord_insert hWn]
  exact findByUrl_isSome_of_mem
    (show mkMetaRec sn hit meta finfo fname ext2 q folder notes ∈ _ by simp) rfl rfl

theorem findByUrl_after_download {env : Env} {sn : String} {hit meta : DatasetHit}
    {f : FileInfo} {content : String} {S T : List Rec}
    (hT : StoreExt (S ++ [mkDownloadRec env sn hit meta f content]) T) :
    (findByUrl T sn f.downloadUrl).isSome = true := by
  obtain ⟨e, rfl⟩ := hT
  exact findByUrl_isSome_of_mem
    (show mkDownloadRec env sn hit meta f content ∈ _ by simp) rfl rfl

theorem processFile_ext (env : Env) (sn : String) (sc : Nat)
    (hit meta : DatasetHit) (f : FileInfo) (σ : PState) :
    StoreExt σ.store (processFile env sn sc hit meta f σ).1.store := by
  by_cases hA : (!isQdaFile env f.name f
      && !(env.qualitativeFormats.contains (strLower (pathSuffix f.name)))) = true
  · rw [pf_eq_irrelevant env sn sc hit meta f σ hA]
    exact storeMetadataRecord_ext _ _ _ _ _ _ _ _ _ _
  · have hA := bool_false hA
    by_cases hB : (findByUrl σ.store sn f.downloadUrl).isSome = true
    · rw [pf_eq_dup env sn sc hit meta f σ hA hB]
      exact storeExt_refl _
    · have hB := bool_false hB
      by_cases hC : (sc != 0 && f.size.getD 0 > sc && !isQdaFile env f.name f) = true
      · rw [pf_eq_oversized env sn sc hit meta f σ hA hB hC]
        exact storeMetadataRecord_ext _ _ _ _ _ _ _ _ _ _
      · have hC := bool_false hC
        by_cases hD : f.restricted = true
        · rw [pf_eq_restricted env sn sc hit meta f σ hA hB hC hD]
          exact storeMetadataRecord_ext _ _ _ _ _ _ _ _ _ _
        · have hD := bool_false hD
          cases hP : env.pull f.downloadUrl (destDirOf env sn hit meta f) f.name with
          | ok content =>
            by_cases hE : (findByHash σ.store (env.hash content)).isSome = true
            · rw [pf_eq_hashDup env sn sc hit meta f σ content hA hB hC hD hP hE]
              exact storeExt_refl _
            · have hE := bool_false hE
              rw [pf_eq_download env sn sc hit meta f σ content hA hB hC hD hP hE]
              exact storeExt_append _ _
          | httpError code =>
            by_cases hcode : code = 403
            · subst hcode
              rw [pf_eq_pull403 env sn sc hit meta f σ hA hB hC hD hP]
              exact storeMetadataRecord_ext _ _ _ _ _ _ _ _ _ _
            · rw [pf_eq_pullHttpOther env sn sc hit meta f σ code hA hB hC hD hP hcode]
              exact storeExt_refl _
          | otherError =>
            rw [pf_eq_pullOther env sn sc hit meta f σ hA hB hC hD hP]
            exact storeExt_refl _

theorem processFile_settled (env : Env) (sn : String) (sc : Nat)
    (hit meta : DatasetHit) (f : FileInfo) (S : List Rec) (fs0 : List String)
    (T : List Rec) (g : List String)
    (hT : StoreExt (processFile env sn sc hit meta f ⟨S, fs0⟩).1.store T) :
    (processFile env sn sc hit meta f ⟨T, g⟩).1.store = T
    ∧ (processFile env sn sc hit meta f ⟨T, g⟩).2 = ⟨0, 0, 0⟩ := by
  by_cases hA : (!isQdaFile env f.name f
      && !(env.qualitativeFormats.contains (strLower (pathSuffix f.name)))) = true
  · rw [pf_eq_irrelevant env sn sc hit meta f ⟨S, fs0⟩ hA] at hT
    rw [pf_eq_irrelevant env sn sc hit meta f ⟨T, g⟩ hA]
    exact ⟨storeMetadataRecord_id (findByUrlName_after_writer hT), rfl⟩
  · have hA := bool_false hA
    by_cases hBS : (findByUrl S sn f.downloadUrl).isSome = true
    · rw [pf_eq_dup env sn sc hit meta f ⟨S, fs0⟩ hA hBS] at hT
      obtain ⟨e, rfl⟩ := hT
      have hBT := findByUrl_mono hBS e
      rw [pf_eq_dup env sn sc hit meta f ⟨S ++ e, g⟩ hA hBT]
      exact ⟨rfl, rfl⟩
    · have hBS := bool_false hBS
      by_cases hC : (sc != 0 && f.size.getD 0 > sc && !isQdaFile env f.name f) = true
      · rw [pf_eq_oversized env sn sc hit meta f ⟨S, fs0⟩ hA hBS hC] at hT
        have hBT := findByUrl_after_writer hT hBS
        rw [pf_eq_dup env sn sc hit meta f ⟨T, g⟩ hA hBT]
        exact ⟨rfl, rfl⟩
      · have hC := bool_false hC
        by_cases hD : f.restricted = true
        · rw [pf_eq_restricted env sn sc hit meta f ⟨S, fs0⟩ hA hBS hC hD] at hT
          have hBT := findByUrl_after_writer hT hBS
          rw [pf_eq_dup env sn sc hit meta f ⟨T, g⟩ hA hBT]
          exact ⟨rfl, rfl⟩
        · have hD := bool_false hD
          cases hP : env.pull f.downloadUrl (destDirOf env sn hit meta f) f.name with
          | ok content =>
            by_cases hE : (findByHash S (env.hash content)).isSome = true
            · rw [pf_eq_hashDup env sn sc hit meta f ⟨S, fs0⟩ content hA hBS hC hD hP hE] at hT
              obtain ⟨e, rfl⟩ := hT
              by_cases hBT : (findByUrl (S ++ e) sn f.downloadUrl).isSome = true
              · rw [pf_eq_dup env sn sc hit meta f ⟨S ++ e, g⟩ hA hBT]
                exact ⟨rfl, rfl⟩
              · have hBT := bool_false hBT
                have hET := findByHash_mono hE e
                rw [pf_eq_hashDup env sn sc hit meta f ⟨S ++ e, g⟩ content hA hBT hC hD hP hET]
                exact ⟨rfl, rfl⟩
            · have hE := bool_false hE
              rw [pf_eq_download env sn sc hit meta f ⟨S, fs0⟩ content hA hBS hC hD hP hE] at hT
              have hBT := findByUrl_after_download hT
              rw [pf_eq_dup env sn sc hit meta f ⟨T, g⟩ hA hBT]
              exact ⟨rfl, rfl⟩
          | httpError code =>
            by_cases hcode : code = 403
            · subst hcode
              rw [pf_eq_pull403 env sn sc hit meta f ⟨S, fs0⟩ hA hBS hC hD hP] at hT
              have hBT := findByUrl_after_writer hT hBS
              rw [pf_eq_dup env sn sc hit meta f ⟨T, g⟩ hA hBT]
              exact ⟨rfl, rfl⟩
            · rw [pf_eq_pullHttpOther env sn sc hit meta f ⟨S, fs0⟩ code hA hBS hC hD hP hcode] at hT
              obtain ⟨e, rfl⟩ := hT
              by_cases hBT : (findByUrl (S ++ e) sn f.downloadUrl).isSome = true
              · rw [pf_eq_dup env sn sc hit meta f ⟨S ++ e, g⟩ hA hBT]
                exact ⟨rfl, rfl⟩
              · have hBT := bool_false hBT
                rw [pf_eq_pullHttpOther env sn sc hit meta f ⟨S ++ e, g⟩ code hA hBT hC hD hP hcode]
                exact ⟨rfl, rfl⟩
          | otherError =>
            rw [pf_eq_pullOther env sn sc hit meta f ⟨S, fs0⟩ hA hBS hC hD hP] at hT
            obtain ⟨e, rfl⟩ := hT
            by_cases hBT : (findByUrl (S ++ e) sn f.downloadUrl).isSome = true
            · rw [pf_eq_dup env sn sc hit meta f ⟨S ++ e, g⟩ hA hBT]
              exact ⟨rfl, rfl⟩
            · have hBT := bool_false hBT
              rw [pf_eq_pullOther env sn sc hit meta f ⟨S ++ e, g⟩ hA hBT hC hD hP]
              exact ⟨rfl, rfl⟩

theorem processFiles_ext (env : Env) (sn : String) (sc : Nat)
    (hit meta : DatasetHit) :
    ∀ (l : List FileInfo) (σ : PState),
      StoreExt σ.store (processFiles env sn sc hit meta l σ).1.store := by
  intro l
  induction l with
  | nil => intro σ; exact storeExt_refl _
  | cons f rest ih =>
    intro σ
    simp only [processFiles]
    exact storeExt_trans (processFile_ext env sn sc hit meta f σ) (ih _)

theorem processFiles_settled (env : Env) (sn : String) (sc : Nat)
    (hit meta : DatasetHit) :
    ∀ (l : List FileInfo) (S : List Rec) (fs0 : List String)
      (T : List Rec) (g : List String),
      StoreExt (processFiles env sn sc hit meta l ⟨S, fs0⟩).1.store T →
      (processFiles env sn sc hit meta l ⟨T, g⟩).1.store = T
      ∧ (processFiles env sn sc hit meta l ⟨T, g⟩).2 = ⟨0, 0, 0⟩ := by
  intro l
  induction l with
  | nil =>
    intro S fs0 T g hT
    exact ⟨rfl, rfl⟩
  | cons f rest ih =>
    intro S fs0 T g hT
    simp only [processFiles] at hT ⊢
    have hT1 : StoreExt (processFile env sn sc hit meta f ⟨S, fs0⟩).1.store T :=
      storeExt_trans (processFiles_ext env sn sc hit meta rest _) hT
    have hs := processFile_settled env sn sc hit meta f S fs0 T g hT1
    have heta : ∀ (x : PState), x.store = T → x = ⟨T, x.fs⟩ := by
      intro x hx
      rw [← hx]
    rw [heta _ hs.1]
    have hrest := ih (processFile env sn sc hit meta f ⟨S, fs0⟩).1.store
      (processFile env sn sc hit meta f ⟨S, fs0⟩).1.fs T
      (processFile env sn sc hit meta f ⟨T, g⟩).1.fs hT
    refine ⟨hrest.1, ?_⟩
    rw [hs.2, hrest.2]
    rfl

theorem processHit_settled (env : Env) (sn : String) (sc : Nat) (hit : DatasetHit)
    (σ : PState) :
    (processHit env sn sc hit (processHit env sn sc hit σ).1).1.store
      = (processHit env sn sc hit σ).1.store
    ∧ (processHit env sn sc hit (processHit env sn sc hit σ).1).2.downloaded = 0 := by
  unfold processHit
  cases hM : env.fetchMeta hit.sourceUrl with
  | none => exact ⟨rfl, rfl⟩
  | some meta =>
    by_cases hL : (!licenseIsOpen (some meta.licenseType)) = true
    · simp only [if_pos hL]
      exact ⟨trivial, trivial⟩
    · simp only [if_neg hL]
      by_cases hMt : meta.files.isEmpty = true
      · simp only [if_pos hMt]
        exact ⟨trivial, trivial⟩
      · simp only [if_neg hMt]
        by_cases hK : (kindExcluded env meta && !datasetHasQda env meta.files) = true
        · simp only [if_pos hK]
          exact ⟨trivial, trivial⟩
        · simp only [if_neg hK]
          by_cases hR : (!datasetHasQda env meta.files && !relevanceMatch env meta) = true
          · simp only [if_pos hR]
            exact ⟨trivial, trivial⟩
          · simp only [if_neg hR]
            have hsettle := processFiles_settled env sn sc hit meta meta.files
              σ.store σ.fs
              (processFiles env sn sc hit meta meta.files σ).1.store
              (processFiles env sn sc hit meta meta.files σ).1.fs
              (storeExt_refl _)
            have heta : (⟨(processFiles env sn sc hit meta meta.files σ).1.store,
                (processFiles env sn sc hit meta meta.files σ).1.fs⟩ : PState) =
                (processFiles env sn sc hit meta meta.files σ).1 := rfl
            rw [heta] at hsettle
            exact ⟨hsettle.1, by rw [hsettle.2]⟩

/-! ## Claim C1: idempotence of admission -/

/-- C1: running the admission pipeline (`_process_hits`) a second time over
the same hit against the store produced by the first run leaves the store's
records unchanged (literally equal, not merely as a set) and returns a
downloaded counter of 0 on the second run: every file previously resolved
to downloaded / restricted / oversized is matched by the duplicate lookup on
(source, downloadUrl), "irrelevant file type" rows are matched by the
(source, downloadUrl, filename) lookup inside the metadata-record writer,
files whose download failed fail identically again, and hash-duplicates are
caught again by the hash lookup. -/
theorem c1_admission_idempotent (env : Env) (sn : String) (sc : Nat)
    (hit : DatasetHit) (σ : PState) :
    (processHits env sn sc [hit] (processHits env sn sc [hit] σ).1).1.store
      = (processHits env sn sc [hit] σ).1.store
    ∧ (processHits env sn sc [hit] (processHits env sn sc [hit] σ).1).2.downloaded
      = 0 :=
  processHit_settled env sn sc hit σ

/-! ## Claim C2: size-cap boundary behaviour -/

/-- C2: with a nonzero cap, a QDA file is downloaded regardless of declared
size; a non-QDA file exactly at the cap is downloaded; a non-QDA file at
least one byte over the cap becomes a metadata-only record with an
oversized note carrying the declared size (the source renders it in MB) and
the skip counter is incremented; a cap of 0 disables the size gate.  The
download conclusions assume the file passes the other per-file gates (not a
URL duplicate, not pre-declared restricted, download succeeds, content hash
fresh). -/
theorem c2_size_cap_boundary :
    (∀ (env : Env) (sn : String) (sc : Nat) (hit meta : DatasetHit)
        (f : FileInfo) (σ : PState) (content : String),
      isQdaFile env f.name f = true →
      (findByUrl σ.store sn f.downloadUrl).isSome = false →
      f.restricted = false →
      env.pull f.downloadUrl (destDirOf env sn hit meta f) f.name
        = PullResult.ok content →
      (findByHash σ.store (env.hash content)).isSome = false →
      processFile env sn sc hit meta f σ =
        (⟨σ.store ++ [mkDownloadRec env sn hit meta f content],
            fsAdd σ.fs (localPathOf env sn hit meta f)⟩, ⟨1, 0, 0⟩)
      ∧ (mkDownloadRec env sn hit meta f content).localPath.isSome = true)
    ∧ (∀ (env : Env) (sn : String) (sc : Nat) (hit meta : DatasetHit)
        (f : FileInfo) (σ : PState) (content : String),
      isQdaFile env f.name f = false →
      env.qualitativeFormats.contains (strLower (pathSuffix f.name)) = true →
      f.size.getD 0 = sc →
      (findByUrl σ.store sn f.downloadUrl).isSome = false →
      f.restricted = false →
      env.pull f.downloadUrl (destDirOf env sn hit meta f) f.name
        = PullResult.ok content →
      (findByHash σ.store (env.hash content)).isSome = false →
      processFile env sn sc hit meta f σ =
        (⟨σ.store ++ [mkDownloadRec env sn hit meta f content],
            fsAdd σ.fs (localPathOf env sn hit meta f)⟩, ⟨1, 0, 0⟩))
    ∧ (∀ (env : Env) (sn : String) (sc : Nat) (hit meta : DatasetHit)
        (f : FileInfo) (σ : PState),
      sc ≠ 0 →
      isQdaFile env f.name f = false →
      env.qualitativeFormats.contains (strLower (pathSuffix f.name)) = true →
      f.size.getD 0 > sc →
      (findByUrl σ.store sn f.downloadUrl).isSome = false →
      processFile env sn sc hit meta f σ =
        (⟨σ.store ++ [mkMetaRec sn hit meta f f.name (strLower (pathSuffix f.name))
            (isQdaFile env f.name f) (some (folderNameOf env sn hit meta f))
            (Notes.oversized (f.size.getD 0))], σ.fs⟩, ⟨0, 0, 1⟩)
      ∧ (mkMetaRec sn hit meta f f.name (strLower (pathSuffix f.name))
          (isQdaFile env f.name f) (some (folderNameOf env sn hit meta f))
          (Notes.oversized (f.size.getD 0))).notes
            = some (Notes.oversized (f.size.getD 0))
      ∧ (mkMetaRec sn hit meta f f.name (strLower (pathSuffix f.name))
          (isQdaFile env f.name f) (some (folderNameOf env sn hit meta f))
          (Notes.oversized (f.size.getD 0))).localPath = none)
    ∧ (∀ (env : Env) (sn : String) (hit meta : DatasetHit)
        (f : FileInfo) (σ : PState) (content : String),
      env.qualitativeFormats.contains (strLower (pathSuffix f.name)) = true →
      (findByUrl σ.store sn f.downloadUrl).isSome = false →
      f.restricted = false →
      env.pull f.downloadUrl (destDirOf env sn hit meta f) f.name
        = PullResult.ok content →
      (findByHash σ.store (env.hash content)).isSome = false →
      processFile env sn 0 hit meta f σ =
        (⟨σ.store ++ [mkDownloadRec env sn hit meta f content],
            fsAdd σ.fs (localPathOf env sn hit meta f)⟩, ⟨1, 0, 0⟩)) := by
  refine ⟨?_, ?_, ?_, ?_⟩
  · intro env sn sc hit meta f σ content hq hB hD hP hE
    have hA : (!isQdaFile env f.name f
        && !(env.qualitativeFormats.contains (strLower (pathSuffix f.name)))) = false := by
      simp [hq]
    have hC : (sc != 0 && f.size.getD 0 > sc && !isQdaFile env f.name f) = false := by
      simp [hq]
    exact ⟨pf_eq_download env sn sc hit meta f σ content hA hB hC hD hP hE, rfl⟩
  · intro env sn sc hit meta f σ content hq hcont hsz hB hD hP hE
    have hA : (!isQdaFile env f.name f
        && !(env.qualitativeFormats.contains (strLower (pathSuffix f.name)))) = false := by
      rw [hcont]
      simp
    have hC : (sc != 0 && f.size.getD 0 > sc && !isQdaFile env f.name f) = false := by
      simp [hsz]
    exact pf_eq_download env sn sc hit meta f σ content hA hB hC hD hP hE
  · intro env sn sc hit meta f σ hsc hq hcont hsz hB
    have hA : (!isQdaFile env f.name f
        && !(env.qualitativeFormats.contains (strLower (pathSuffix f.name)))) = false := by
      rw [hcont]
      simp
    have hC : (sc != 0 && f.size.getD 0 > sc && !isQdaFile env f.name f) = true := by
      simp [hsc, hsz, hq]
    have heq := pf_eq_oversized env sn sc hit meta f σ hA hB hC
    have hWn : findByUrlName σ.store sn f.downloadUrl f.name = none :=
      findByUrlName_none (opt_none_of_isSome_false hB)
    have hins : storeMetadataRecord sn hit meta f f.name (strLower (pathSuffix f.name))
        (isQdaFile env f.name f) (some (folderNameOf env sn hit meta f))
        (Notes.oversized (f.size.getD 0)) σ.store =
        σ.store ++ [mkMetaRec sn hit meta f f.name (strLower (pathSuffix f.name))
          (isQdaFile env f.name f) (some (folderNameOf env sn hit meta f))
          (Notes.oversized (f.size.getD 0))] :=
      storeMetadataRecord_insert hWn
    rw [heq, hins]
    exact ⟨rfl, rfl, rfl⟩
  · intro env sn hit meta f σ content hcont hB hD hP hE
    have hA : (!isQdaFile env f.name f
        && !(env.qualitativeFormats.contains (strLower (pathSuffix f.name)))) = false := by
      rw [hcont]
      simp
    have hC : ((0 : Nat) != 0 && f.size.getD 0 > 0 && !isQdaFile env f.name f) = false := by
      simp
    exact pf_eq_download env sn 0 hit meta f σ content hA hB hC hD hP hE

/-- C2 witness: with the default cap, the 2 KiB QDA file downloads
(conjunct i at a concrete input) and a non-QDA pdf one byte over the cap is
stored metadata-only with the oversized note (conjunct iii). -/
theorem c2_witness :
    (processFile envW "qdr" _DEFAULT_SIZE_CAP hitW hitW fileW ⟨[], []⟩ =
      (⟨[] ++ [mkDownloadRec envW "qdr" hitW hitW fileW "BYTES"],
          fsAdd [] (localPathOf envW "qdr" hitW hitW fileW)⟩, ⟨1, 0, 0⟩))
    ∧ (∀ (fBig : FileInfo), fBig = { filePdfW with size := some (_DEFAULT_SIZE_CAP + 1) } →
      processFile envW "qdr" _DEFAULT_SIZE_CAP hitW hitW fBig ⟨[], []⟩ =
        (⟨[] ++ [mkMetaRec "qdr" hitW hitW fBig fBig.name
            (strLower (pathSuffix fBig.name)) (isQdaFile envW fBig.name fBig)
            (some (folderNameOf envW "qdr" hitW hitW fBig))
            (Notes.oversized (fBig.size.getD 0))], []⟩, ⟨0, 0, 1⟩)) := by
  constructor
  · exact (c2_size_cap_boundary.1 envW "qdr" _DEFAULT_SIZE_CAP hitW hitW fileW
      ⟨[], []⟩ "BYTES" (by decide) (by decide) (by decide) rfl (by decide)).1
  · intro fBig hf
    subst hf
    exact (c2_size_cap_boundary.2.2.1 envW "qdr" _DEFAULT_SIZE_CAP hitW hitW _
      ⟨[], []⟩ (by decide) (by decide) (by decide) (by decide) (by decide)).1

/-! ## Claim C5: restriction and download-error handling -/

/-- C5: for a file that passes the irrelevant-type, duplicate-by-URL and
size-cap gates: (i) a pre-declared restricted file is stored metadata-only
and the restricted counter is incremented; moreover a restricted file's
outcome never depends on the adapter's `pull_file` (no download attempted);
(ii) an HTTP 403 during download yields the identical outcome to (i);
(iii) any other HTTP status error, and any other download failure, creates
no record and changes no counter. -/
theorem c5_restriction_and_errors :
    (∀ (env : Env) (sn : String) (sc : Nat) (hit meta : DatasetHit)
        (f : FileInfo) (σ : PState),
      (!isQdaFile env f.name f
        && !(env.qualitativeFormats.contains (strLower (pathSuffix f.name)))) = false →
      (findByUrl σ.store sn f.downloadUrl).isSome = false →
      (sc != 0 && f.size.getD 0 > sc && !isQdaFile env f.name f) = false →
      f.restricted = true →
      processFile env sn sc hit meta f σ =
        (⟨storeMetadataRecord sn hit meta f f.name (strLower (pathSuffix f.name))
            (isQdaFile env f.name f) (some (folderNameOf env sn hit meta f))
            Notes.accessRestricted σ.store, σ.fs⟩, ⟨0, 1, 0⟩))
    ∧ (∀ (env : Env) (p : String → String → String → PullResult) (sn : String)
        (sc : Nat) (hit meta : DatasetHit) (f : FileInfo) (σ : PState),
      f.restricted = true →
      processFile { env with pull := p } sn sc hit meta f σ
        = processFile env sn sc hit meta f σ)
    ∧ (∀ (env : Env) (sn : String) (sc : Nat) (hit meta : DatasetHit)
        (f : FileInfo) (σ : PState),
      (!isQdaFile env f.name f
        && !(env.qualitativeFormats.contains (strLower (pathSuffix f.name)))) = false →
      (findByUrl σ.store sn f.downloadUrl).isSome = false →
      (sc != 0 && f.size.getD 0 > sc && !isQdaFile env f.name f) = false →
      f.restricted = false →
      env.pull f.downloadUrl (destDirOf env sn hit meta f) f.name
        = PullResult.httpError 403 →
      processFile env sn sc hit meta f σ =
        (⟨storeMetadataRecord sn hit meta f f.name (strLower (pathSuffix f.name))
            (isQdaFile env f.name f) (some (folderNameOf env sn hit meta f))
            Notes.accessRestricted σ.store, σ.fs⟩, ⟨0, 1, 0⟩))
    ∧ (∀ (env : Env) (sn : String) (sc : Nat) (hit meta : DatasetHit)
        (f : FileInfo) (σ : PState) (code : Nat),
      (!isQdaFile env f.name f
        && !(env.qualitativeFormats.contains (strLower (pathSuffix f.name)))) = false →
      (findByUrl σ.store sn f.downloadUrl).isSome = false →
      (sc != 0 && f.size.getD 0 > sc && !isQdaFile env f.name f) = false →
      f.restricted = false →
      env.pull f.downloadUrl (destDirOf env sn hit meta f) f.name
        = PullResult.httpError code →
      code ≠ 403 →
      processFile env sn sc hit meta f σ = (σ, ⟨0, 0, 0⟩))
    ∧ (∀ (env : Env) (sn : String) (sc : Nat) (hit meta : DatasetHit)
        (f : FileInfo) (σ : PState),
      (!isQdaFile env f.name f
        && !(env.qualitativeFormats.contains (strLower (pathSuffix f.name)))) = false →
      (findByUrl σ.store sn f.downloadUrl).isSome = false →
      (sc != 0 && f.size.getD 0 > sc && !isQdaFile env f.name f) = false →
      f.restricted = false →
      env.pull f.downloadUrl (destDirOf env sn hit meta f) f.name
        = PullResult.otherError →
      processFile env sn sc hit meta f σ = (σ, ⟨0, 0, 0⟩)) := by
  refine ⟨?_, ?_, ?_, ?_, ?_⟩
  · intro env sn sc hit meta f σ hA hB hC hD
    exact pf_eq_restricted env sn sc hit meta f σ hA hB hC hD
  · intro env p sn sc hit meta f σ hD
    by_cases hA : (!isQdaFile env f.name f
        && !(env.qualitativeFormats.contains (strLower (pathSuffix f.name)))) = true
    · rw [pf_eq_irrelevant { env with pull := p } sn sc hit meta f σ hA,
        pf_eq_irrelevant env sn sc hit meta f σ hA]
      rfl
    · have hA := bool_false hA
      by_cases hB : (findByUrl σ.store sn f.downloadUrl).isSome = true
      · rw [pf_eq_dup { env with pull := p } sn sc hit meta f σ hA hB,
          pf_eq_dup env sn sc hit meta f σ hA hB]
      · have hB := bool_false hB
        by_cases hC : (sc != 0 && f.size.getD 0 > sc && !isQdaFile env f.name f) = true
        · rw [pf_eq_oversized { env with pull := p } sn sc hit meta f σ hA hB hC,
            pf_eq_oversized env sn sc hit meta f σ hA hB hC]
          rfl
        · have hC := bool_false hC
          rw [pf_eq_restricted { env with pull := p } sn sc hit meta f σ hA hB hC hD,
            pf_eq_restricted env sn sc hit meta f σ hA hB hC hD]
          rfl
  · intro env sn sc hit meta f σ hA hB hC hD hP
    exact pf_eq_pull403 env sn sc hit meta f σ hA hB hC hD hP
  · intro env sn sc hit meta f σ code hA hB hC hD hP hcode
    exact pf_eq_pullHttpOther env sn sc hit meta f σ code hA hB hC hD hP hcode
  · intro env sn sc hit meta f σ hA hB hC hD hP
    exact pf_eq_pullOther env sn sc hit meta f σ hA hB hC hD hP

/-- C5 witness: a pre-declared restricted QDA file is stored metadata-only
with the restricted counter incremented; a 403 on download gives the same
outcome for the same file; a 404 leaves the state untouched. -/
theorem c5_witness :
    (∀ (fr : FileInfo), fr = { fileW with restricted := true } →
      processFile envW "qdr" _DEFAULT_SIZE_CAP hitW hitW fr ⟨[], []⟩ =
        (⟨storeMetadataRecord "qdr" hitW hitW fr fr.name (strLower (pathSuffix fr.name))
            (isQdaFile envW fr.name fr) (some (folderNameOf envW "qdr" hitW hitW fr))
            Notes.accessRestricted [], []⟩, ⟨0, 1, 0⟩))
    ∧ processFile envW403 "qdr" _DEFAULT_SIZE_CAP hitW hitW fileW ⟨[], []⟩ =
        (⟨storeMetadataRecord "qdr" hitW hitW fileW fileW.name
            (strLower (pathSuffix fileW.name)) (isQdaFile envW403 fileW.name fileW)
            (some (folderNameOf envW403 "qdr" hitW hitW fileW))
            Notes.accessRestricted [], []⟩, ⟨0, 1, 0⟩)
    ∧ processFile envW404 "qdr" _DEFAULT_SIZE_CAP hitW hitW fileW ⟨[], []⟩ =
        (⟨[], []⟩, ⟨0, 0, 0⟩) := by
  refine ⟨?_, ?_, ?_⟩
  · intro fr hf
    subst hf
    exact c5_restriction_and_errors.1 envW "qdr" _DEFAULT_SIZE_CAP hitW hitW _
      ⟨[], []⟩ (by decide) (by decide) (by decide) (by decide)
  · exact c5_restriction_and_errors.2.2.1 envW403 "qdr" _DEFAULT_SIZE_CAP hitW hitW
      fileW ⟨[], []⟩ (by decide) (by decide) (by decide) (by decide) rfl
  · exact c5_restriction_and_errors.2.2.2.1 envW404 "qdr" _DEFAULT_SIZE_CAP hitW hitW
      fileW ⟨[], []⟩ 404 (by decide) (by decide) (by decide) (by decide) rfl (by decide)

/-! ## Claim C6: terminal-state invariant of persisted records -/

theorem recShapeOk_mkMetaRec (sn : String) (hit meta : DatasetHit)
    (finfo : FileInfo) (fname ext2 : String) (q : Bool) (folder : Option String)
    (notes : Notes) :
    recShapeOk (mkMetaRec sn hit meta finfo fname ext2 q folder notes) := by
  cases notes <;>
    simp [recShapeOk, exactlyOneShape, downloadedShape, restrictedShape,
      metadataOnlyShape, mkMetaRec]

theorem recShapeOk_mkDownloadRec (env : Env) (sn : String)
    (hit meta : DatasetHit) (f : FileInfo) (content : String) :
    recShapeOk (mkDownloadRec env sn hit meta f content) := by
  simp [recShapeOk, exactlyOneShape, downloadedShape, restrictedShape,
    metadataOnlyShape, mkDownloadRec]

theorem storeMetadataRecord_shapes (sn : String) (hit meta : DatasetHit)
    (finfo : FileInfo) (fname ext2 : String) (q : Bool) (folder : Option String)
    (notes : Notes) (S : List Rec) :
    ∃ ext, storeMetadataRecord sn hit meta finfo fname ext2 q folder notes S
        = S ++ ext ∧ ∀ r ∈ ext, recShapeOk r := by
  by_cases h : (findByUrlName S sn finfo.downloadUrl fname).isSome = true
  · refine ⟨[], ?_, by simp⟩
    rw [storeMetadataRecord_id h]
    simp
  · refine ⟨[mkMetaRec sn hit meta finfo fname ext2 q folder notes],
      storeMetadataRecord_insert (opt_none_of_isSome_false (bool_false h)), ?_⟩
    intro r hr
    rw [List.mem_singleton] at hr
    subst hr
    exact recShapeOk_mkMetaRec sn hit meta finfo fname ext2 q folder notes

theorem processFile_shapes (env : Env) (sn : String) (sc : Nat)
    (hit meta : DatasetHit) (f : FileInfo) (σ : PState) :
    ∃ ext, (processFile env sn sc hit meta f σ).1.store = σ.store ++ ext
      ∧ ∀ r ∈ ext, recShapeOk r := by
  by_cases hA : (!isQdaFile env f.name f
      && !(env.qualitativeFormats.contains (strLower (pathSuffix f.name)))) = true
  · rw [pf_eq_irrelevant env sn sc hit meta f σ hA]
    exact storeMetadataRecord_shapes _ _ _ _ _ _ _ _ _ _
  · have hA := bool_false hA
    by_cases hB : (findByUrl σ.store sn f.downloadUrl).isSome = true
    · rw [pf_eq_dup env sn sc hit meta f σ hA hB]
      exact ⟨[], by simp, by simp⟩
    · have hB := bool_false hB
      by_cases hC : (sc != 0 && f.size.getD 0 > sc && !isQdaFile env f.name f) = true
      · rw [pf_eq_oversized env sn sc hit meta f σ hA hB hC]
        exact storeMetadataRecord_shapes _ _ _ _ _ _ _ _ _ _
      · have hC := bool_false hC
        by_cases hD : f.restricted = true
        · rw [pf_eq_restricted env sn sc hit meta f σ hA hB hC hD]
          exact storeMetadataRecord_shapes _ _ _ _ _ _ _ _ _ _
        · have hD := bool_false hD
          cases hP : env.pull f.downloadUrl (destDirOf env sn hit meta f) f.name with
          | ok content =>
            by_cases hE : (findByHash σ.store (env.hash content)).isSome = true
            · rw [pf_eq_hashDup env sn sc hit meta f σ content hA hB hC hD hP hE]
              exact ⟨[], by simp, by simp⟩
            · have hE := bool_false hE
              rw [pf_eq_download env sn sc hit meta f σ content hA hB hC hD hP hE]
              refine ⟨[mkDownloadRec env sn hit meta f content], rfl, ?_⟩
              intro r hr
              rw [List.mem_singleton] at hr
              subst hr
              exact recShapeOk_mkDownloadRec env sn hit meta f content
          | httpError code =>
            by_cases hcode : code = 403
            · subst hcode
              rw [pf_eq_pull403 env sn sc hit meta f σ hA hB hC hD hP]
              exact storeMetadataRecord_shapes _ _ _ _ _ _ _ _ _ _
            · rw [pf_eq_pullHttpOther env sn sc hit meta f σ code hA hB hC hD hP hcode]
              exact ⟨[], by simp, by simp⟩
          | otherError =>
            rw [pf_eq_pullOther env sn sc hit meta f σ hA hB hC hD hP]
            exact ⟨[], by simp, by simp⟩

theorem processFiles_shapes (env : Env) (sn : String) (sc : Nat)
    (hit meta : DatasetHit) :
    ∀ (l : List FileInfo) (σ : PState),
      ∃ ext, (processFiles env sn sc hit meta l σ).1.store = σ.store ++ ext
        ∧ ∀ r ∈ ext, recShapeOk r := by
  intro l
  induction l with
  | nil => intro σ; exact ⟨[], by simp [processFiles], by simp⟩
  | cons f rest ih =>
    intro σ
    simp only [processFiles]
    obtain ⟨e1, he1, hp1⟩ := processFile_shapes env sn sc hit meta f σ
    obtain ⟨e2, he2, hp2⟩ := ih (processFile env sn sc hit meta f σ).1
    refine ⟨e1 ++ e2, ?_, ?_⟩
    · rw [he2, he1, List.append_assoc]
    · intro r hr
      rcases List.mem_append.mp hr with h | h
      · exact hp1 r h
      · exact hp2 r h

theorem processHit_shapes (env : Env) (sn : String) (sc : Nat)
    (hit : DatasetHit) (σ : PState) :
    ∃ ext, (processHit env sn sc hit σ).1.store = σ.store ++ ext
      ∧ ∀ r ∈ ext, recShapeOk r := by
  unfold processHit
  cases hM : env.fetchMeta hit.sourceUrl with
  | none => exact ⟨[], by simp, by simp⟩
  | some meta =>
    by_cases hL : (!licenseIsOpen (some meta.licenseType)) = true
    · simp only [if_pos hL]
      exact ⟨[], by simp, by simp⟩
    · simp only [if_neg hL]
      by_cases hMt : meta.files.isEmpty = true
      · simp only [if_pos hMt]
        exact ⟨[], by simp, by simp⟩
      · simp only [if_neg hMt]
        by_cases hK : (kindExcluded env meta && !datasetHasQda env meta.files) = true
        · simp only [if_pos hK]
          exact ⟨[], by simp, by simp⟩
        · simp only [if_neg hK]
          by_cases hR : (!datasetHasQda env meta.files && !relevanceMatch env meta) = true
          · simp only [if_pos hR]
            exact ⟨[], by simp, by simp⟩
          · simp only [if_neg hR]
            exact processFiles_shapes env sn sc hit meta meta.files σ

/-- C6: every record the pipeline persists is in exactly one of the three
terminal shapes — downloaded (non-null local path; then it has a content
hash and its notes are empty, so they cannot mention restriction),
restricted (null local path, the writer's default restriction notes), or
metadata-only (null local path, notes naming the reason: irrelevant file
type or oversized); records created through the metadata-only writer always
have a null local path and no content hash. -/
theorem c6_terminal_state_invariant (env : Env) (sn : String) (sc : Nat)
    (hits : List DatasetHit) (σ : PState) :
    ∃ ext, (processHits env sn sc hits σ).1.store = σ.store ++ ext
      ∧ ∀ r ∈ ext, exactlyOneShape r
        ∧ (downloadedShape r → r.fileHash.isSome = true ∧ r.notes = none)
        ∧ (restrictedShape r ∨ metadataOnlyShape r →
            r.localPath = none ∧ r.fileHash = none) := by
  induction hits generalizing σ with
  | nil => exact ⟨[], by simp [processHits], by simp⟩
  | cons h rest ih =>
    simp only [processHits]
    obtain ⟨e1, he1, hp1⟩ := processHit_shapes env sn sc h σ
    obtain ⟨e2, he2, hp2⟩ := ih (processHit env sn sc h σ).1
    refine ⟨e1 ++ e2, ?_, ?_⟩
    · rw [he2, he1, List.append_assoc]
    · intro r hr
      rcases List.mem_append.mp hr with hm | hm
      · exact hp1 r hm
      · exact hp2 r hm

/-! ## Claim C4: content-hash deduplication -/

theorem findByHash_isSome_of_mem {S : List Rec} {r : Rec} {d : String}
    (hr : r ∈ S) (h : r.fileHash = some d) : (findByHash S d).isSome = true := by
  unfold findByHash
  rw [List.find?_isSome]
  exact ⟨r, hr, by simp [h]⟩

theorem findByUrl_append_single_none {S : List Rec} {r : Rec} {sn u : String}
    (h : (findByUrl S sn u).isSome = false)
    (hr : (r.sourceName == sn && r.downloadUrl == u) = false) :
    (findByUrl (S ++ [r]) sn u).isSome = false := by
  unfold findByUrl at h ⊢
  rw [List.find?_append, opt_none_of_isSome_false h]
  simp [List.find?, hr]

theorem hashUniq_append {S : List Rec} {r : Rec} (h : hashUniq S)
    (hr : ∀ x ∈ S, HashOk x r) : hashUniq (S ++ [r]) := by
  unfold hashUniq at h ⊢
  rw [List.pairwise_append]
  refine ⟨h, List.pairwise_singleton _ _, ?_⟩
  intro a ha b hb
  rw [List.mem_singleton] at hb
  subst hb
  exact hr a ha

theorem storeMetadataRecord_hashUniq (sn : String) (hit meta : DatasetHit)
    (finfo : FileInfo) (fname ext2 : String) (q : Bool) (folder : Option String)
    (notes : Notes) (S : List Rec) (h : hashUniq S) :
    hashUniq (storeMetadataRecord sn hit meta finfo fname ext2 q folder notes S) := by
  by_cases hW : (findByUrlName S sn finfo.downloadUrl fname).isSome = true
  · rw [storeMetadataRecord_id hW]
    exact h
  · rw [storeMetadataRecord_insert (opt_none_of_isSome_false (bool_false hW))]
    exact hashUniq_append h (fun x _ => Or.inr (Or.inl rfl))

theorem findByHash_none_all {S : List Rec} {d : String}
    (h : (findByHash S d).isSome = false) :
    ∀ x ∈ S, x.fileHash ≠ some d := by
  intro x hx hcontra
  have := findByHash_isSome_of_mem hx hcontra
  rw [this] at h
  exact absurd h (by simp)

theorem processFile_hashUniq (env : Env) (sn : String) (sc : Nat)
    (hit meta : DatasetHit) (f : FileInfo) (σ : PState) (h : hashUniq σ.store) :
    hashUniq (processFile env sn sc hit meta f σ).1.store := by
  by_cases hA : (!isQdaFile env f.name f
      && !(env.qualitativeFormats.contains (strLower (pathSuffix f.name)))) = true
  · rw [pf_eq_irrelevant env sn sc hit meta f σ hA]
    exact storeMetadataRecord_hashUniq _ _ _ _ _ _ _ _ _ _ h
  · have hA := bool_false hA
    by_cases hB : (findByUrl σ.store sn f.downloadUrl).isSome = true
    · rw [pf_eq_dup env sn sc hit meta f σ hA hB]
      exact h
    · have hB := bool_false hB
      by_cases hC : (sc != 0 && f.size.getD 0 > sc && !isQdaFile env f.name f) = true
      · rw [pf_eq_oversized env sn sc hit meta f σ hA hB hC]
        exact storeMetadataRecord_hashUniq _ _ _ _ _ _ _ _ _ _ h
      · have hC := bool_false hC
        by_cases hD : f.restricted = true
        · rw [pf_eq_restricted env sn sc hit meta f σ hA hB hC hD]
          exact storeMetadataRecord_hashUniq _ _ _ _ _ _ _ _ _ _ h
        · have hD := bool_false hD
          cases hP : env.pull f.downloadUrl (destDirOf env sn hit meta f) f.name with
          | ok content =>
            by_cases hE : (findByHash σ.store (env.hash content)).isSome = true
            · rw [pf_eq_hashDup env sn sc hit meta f σ content hA hB hC hD hP hE]
              exact h
            · have hE := bool_false hE
              rw [pf_eq_download env sn sc hit meta f σ content hA hB hC hD hP hE]
              refine hashUniq_append h ?_
              intro x hx
              cases hxh : x.fileHash with
              | none => exact Or.inl hxh
              | some d =>
                refine Or.inr (Or.inr ?_)
                rw [hxh]
                intro hcontra
                exact findByHash_none_all hE x hx (by rw [hxh, hcontra]; rfl)
          | httpError code =>
            by_cases hcode : code = 403
            · subst hcode
              rw [pf_eq_pull403 env sn sc hit meta f σ hA hB hC hD hP]
              exact storeMetadataRecord_hashUniq _ _ _ _ _ _ _ _ _ _ h
            · rw [pf_eq_pullHttpOther env sn sc hit meta f σ code hA hB hC hD hP hcode]
              exact h
          | otherError =>
            rw [pf_eq_pullOther env sn sc hit meta f σ hA hB hC hD hP]
            exact h

theorem processFiles_hashUniq (env : Env) (sn : String) (sc : Nat)
    (hit meta : DatasetHit) :
    ∀ (l : List FileInfo) (σ : PState), hashUniq σ.store →
      hashUniq (processFiles env sn sc hit meta l σ).1.store := by
  intro l
  induction l with
  | nil => intro σ h; exact h
  | cons f rest ih =>
    intro σ h
    simp only [processFiles]
    exact ih _ (processFile_hashUniq env sn sc hit meta f σ h)

theorem processHit_hashUniq (env : Env) (sn : String) (sc : Nat)
    (hit : DatasetHit) (σ : PState) (h : hashUniq σ.store) :
    hashUniq (processHit env sn sc hit σ).1.store := by
  unfold processHit
  cases hM : env.fetchMeta hit.sourceUrl with
  | none => exact h
  | some meta =>
    by_cases hL : (!licenseIsOpen (some meta.licenseType)) = true
    · simp only [if_pos hL]
      exact h
    · simp only [if_neg hL]
      by_cases hMt : meta.files.isEmpty = true
      · simp only [if_pos hMt]
        exact h
      · simp only [if_neg hMt]
        by_cases hK : (kindExcluded env meta && !datasetHasQda env meta.files) = true
        · simp only [if_pos hK]
          exact h
        · simp only [if_neg hK]
          by_cases hR : (!datasetHasQda env meta.files && !relevanceMatch env meta) = true
          · simp only [if_pos hR]
            exact h
          · simp only [if_neg hR]
            exact processFiles_hashUniq env sn sc hit meta meta.files σ h

/-- C4: hash dedup.  (i) Scenario: two files with identical downloaded
content but different URLs and filenames, both passing the per-file gates
against a store with no matching URL and a fresh hash: exactly one new
record is inserted, it has a non-null local path, the second file's
just-written local copy is absent from the final filesystem, and exactly
one record in the final store carries that content hash.  (ii) Invariant:
`_process_hits` preserves "no two records share a (present) content hash" —
metadata rows carry no hash, and a download is only inserted when the
hash lookup found nothing. -/
theorem c4_hash_dedup :
    (∀ (env : Env) (sn : String) (sc : Nat) (hit meta : DatasetHit)
        (f1 f2 : FileInfo) (σ : PState) (c : String),
      f1.downloadUrl ≠ f2.downloadUrl →
      f1.name ≠ f2.name →
      (!isQdaFile env f1.name f1
        && !(env.qualitativeFormats.contains (strLower (pathSuffix f1.name)))) = false →
      (!isQdaFile env f2.name f2
        && !(env.qualitativeFormats.contains (strLower (pathSuffix f2.name)))) = false →
      (sc != 0 && f1.size.getD 0 > sc && !isQdaFile env f1.name f1) = false →
      (sc != 0 && f2.size.getD 0 > sc && !isQdaFile env f2.name f2) = false →
      f1.restricted = false → f2.restricted = false →
      env.pull f1.downloadUrl (destDirOf env sn hit meta f1) f1.name
        = PullResult.ok c →
      env.pull f2.downloadUrl (destDirOf env sn hit meta f2) f2.name
        = PullResult.ok c →
      (findByUrl σ.store sn f1.downloadUrl).isSome = false →
      (findByUrl σ.store sn f2.downloadUrl).isSome = false →
      (findByHash σ.store (env.hash c)).isSome = false →
      σ.fs.contains (localPathOf env sn hit meta f1) = false →
      σ.fs.contains (localPathOf env sn hit meta f2) = false →
      localPathOf env sn hit meta f1 ≠ localPathOf env sn hit meta f2 →
      processFiles env sn sc hit meta [f1, f2] σ =
        (⟨σ.store ++ [mkDownloadRec env sn hit meta f1 c],
            σ.fs ++ [localPathOf env sn hit meta f1]⟩, ⟨1, 0, 0⟩)
      ∧ (mkDownloadRec env sn hit meta f1 c).localPath.isSome = true
      ∧ localPathOf env sn hit meta f2 ∉ σ.fs ++ [localPathOf env sn hit meta f1]
      ∧ ((σ.store ++ [mkDownloadRec env sn hit meta f1 c]).filter
          (fun r => r.fileHash == some (env.hash c))).length = 1)
    ∧ (∀ (env : Env) (sn : String) (sc : Nat) (hits : List DatasetHit) (σ : PState),
      hashUniq σ.store → hashUniq (processHits env sn sc hits σ).1.store) := by
  constructor
  · intro env sn sc hit meta f1 f2 σ c hurl hname hA1 hA2 hC1 hC2 hD1 hD2
      hP1 hP2 hB1 hB2 hE1 hfs1 hfs2 hpne
    have hmem1 : localPathOf env sn hit meta f1 ∉ σ.fs := by
      intro hm
      have h2 : σ.fs.contains (localPathOf env sn hit meta f1) = true :=
        List.elem_iff.mpr hm
      rw [hfs1] at h2
      exact absurd h2 (by simp)
    have hmem2 : localPathOf env sn hit meta f2 ∉ σ.fs := by
      intro hm
      have h2 : σ.fs.contains (localPathOf env sn hit meta f2) = true :=
        List.elem_iff.mpr hm
      rw [hfs2] at h2
      exact absurd h2 (by simp)
    have step1 := pf_eq_download env sn sc hit meta f1 σ c hA1 hB1 hC1 hD1 hP1 hE1
    have hfsAdd1 : fsAdd σ.fs (localPathOf env sn hit meta f1)
        = σ.fs ++ [localPathOf env sn hit meta f1] := by
      unfold fsAdd
      rw [if_neg (by rw [hfs1]; simp)]
    rw [hfsAdd1] at step1
    set σ1 : PState := ⟨σ.store ++ [mkDownloadRec env sn hit meta f1 c],
      σ.fs ++ [localPathOf env sn hit meta f1]⟩ with hσ1
    have hB2s : (findByUrl σ1.store sn f2.downloadUrl).isSome = false := by
      apply findByUrl_append_single_none hB2
      simp [mkDownloadRec, hurl]
    have hE2s : (findByHash σ1.store (env.hash c)).isSome = true :=
      findByHash_isSome_of_mem (by simp [hσ1]) (show (mkDownloadRec env sn hit meta f1 c).fileHash = some (env.hash c) from rfl)
    have step2 := pf_eq_hashDup env sn sc hit meta f2 σ1 c hA2 hB2s hC2 hD2 hP2 hE2s
    have hfs2s : σ1.fs.contains (localPathOf env sn hit meta f2) = false := by
      show (σ.fs ++ [localPathOf env sn hit meta f1]).contains
        (localPathOf env sn hit meta f2) = false
      cases hc : (σ.fs ++ [localPathOf env sn hit meta f1]).contains
          (localPathOf env sn hit meta f2) with
      | false => rfl
      | true =>
        exfalso
        have hm : localPathOf env sn hit meta f2
            ∈ σ.fs ++ [localPathOf env sn hit meta f1] := List.elem_iff.mp hc
        rw [List.mem_append, List.mem_singleton] at hm
        rcases hm with hm | hm
        · exact hmem2 hm
        · exact hpne hm.symm
    have hfsAdd2 : fsAdd σ1.fs (localPathOf env sn hit meta f2)
        = σ1.fs ++ [localPathOf env sn hit meta f2] := by
      unfold fsAdd
      rw [if_neg (by rw [hfs2s]; simp)]
    have hfsRem : fsRemove (σ1.fs ++ [localPathOf env sn hit meta f2])
        (localPathOf env sn hit meta f2) = σ1.fs := by
      unfold fsRemove
      rw [List.filter_append]
      have h1 : σ1.fs.filter (fun q => q ≠ localPathOf env sn hit meta f2) = σ1.fs := by
        rw [List.filter_eq_self]
        intro a ha
        simp only [decide_eq_true_eq]
        show a ≠ _
        rw [hσ1] at ha
        rcases List.mem_append.mp ha with hm | hm
        · exact fun hc => hmem2 (hc ▸ hm)
        · rw [List.mem_singleton] at hm
          subst hm
          exact hpne
      have h2 : [localPathOf env sn hit meta f2].filter
          (fun q => q ≠ localPathOf env sn hit meta f2) = [] := by
        simp
      rw [h1, h2, List.append_nil]
    rw [hfsAdd2, hfsRem] at step2
    refine ⟨?_, rfl, ?_, ?_⟩
    · simp only [processFiles, step1, step2]
      rfl
    · simp only [List.mem_append, List.mem_singleton]
      rintro (hm | hm)
      · exact hmem2 hm
      · exact hpne hm.symm
    · rw [List.filter_append]
      have h1 : σ.store.filter (fun r => r.fileHash == some (env.hash c)) = [] := by
        rw [List.filter_eq_nil]
        intro a ha
        have := findByHash_none_all hE1 a ha
        simp only [beq_iff_eq]
        exact fun hc => this (by simpa using hc)
      have h2 : [mkDownloadRec env sn hit meta f1 c].filter
          (fun r => r.fileHash == some (env.hash c)) = [mkDownloadRec env sn hit meta f1 c] := by
        simp [mkDownloadRec]
      rw [h1, h2]
      rfl
  · intro env sn sc hits σ h
    induction hits generalizing σ with
    | nil => exact h
    | cons x rest ih =>
      simp only [processHits]
      exact ih _ (processHit_hashUniq env sn sc x σ h)

/-- C4 witness: the scenario at concrete inputs — two QDA files with the
same remote bytes, different URLs and names, against an empty store — and
the invariant starting from an empty store. -/
theorem c4_witness :
    (processFiles envW "qdr" _DEFAULT_SIZE_CAP hitW hitW [fileW, fileW2] ⟨[], []⟩ =
      (⟨[] ++ [mkDownloadRec envW "qdr" hitW hitW fileW "BYTES"],
          [] ++ [localPathOf envW "qdr" hitW hitW fileW]⟩, ⟨1, 0, 0⟩))
    ∧ hashUniq (processHits envW "qdr" _DEFAULT_SIZE_CAP [hitW] ⟨[], []⟩).1.store := by
  constructor
  · exact (c4_hash_dedup.1 envW "qdr" _DEFAULT_SIZE_CAP hitW hitW fileW fileW2
      ⟨[], []⟩ "BYTES" (by decide) (by decide) (by decide) (by decide) (by decide)
      (by decide) (by decide) (by decide) rfl rfl (by decide) (by decide) (by decide)
      (by decide) (by decide) (by decide)).1
  · exact c4_hash_dedup.2 envW "qdr" _DEFAULT_SIZE_CAP [hitW] ⟨[], []⟩
      List.Pairwise.nil

/-! ## Claim C7: pull_file retry discipline -/

/-- C7: transient connection failures are retried up to 3 total attempts
with backoff sleeps of 2 s then 4 s, after which the last error propagates;
an HTTP status error propagates immediately, with no retry and no sleep —
on the first attempt directly, and after a transient first attempt it still
propagates from attempt 2 with only the one sleep already performed;
a success after transient failures returns with the sleeps performed. -/
theorem c7_pull_file_retry :
    (∀ oc : Nat → AttemptOutcome, (∀ a, oc a = AttemptOutcome.transient) →
      pullFileRetry oc = PullOutcome.transientFail 3 [2, 4])
    ∧ (∀ (oc : Nat → AttemptOutcome) (code : Nat),
      oc 1 = AttemptOutcome.httpStatus code →
      pullFileRetry oc = PullOutcome.httpFail code 1 [])
    ∧ (∀ (oc : Nat → AttemptOutcome) (code : Nat),
      oc 1 = AttemptOutcome.transient → oc 2 = AttemptOutcome.httpStatus code →
      pullFileRetry oc = PullOutcome.httpFail code 2 [2])
    ∧ (∀ oc : Nat → AttemptOutcome,
      oc 1 = AttemptOutcome.transient → oc 2 = AttemptOutcome.transient →
      oc 3 = AttemptOutcome.success →
      pullFileRetry oc = PullOutcome.saved 3 [2, 4]) := by
  refine ⟨?_, ?_, ?_, ?_⟩
  · intro oc h
    show pullGo oc 1 2 [] = PullOutcome.transientFail 3 [2, 4]
    rw [pullGo, h 1]
    rw [pullGo, h 2]
    rw [pullGo, h 3]
    rfl
  · intro oc code h
    show pullGo oc 1 2 [] = PullOutcome.httpFail code 1 []
    rw [pullGo, h]
    rfl
  · intro oc code h1 h2
    show pullGo oc 1 2 [] = PullOutcome.httpFail code 2 [2]
    rw [pullGo, h1]
    rw [pullGo, h2]
    rfl
  · intro oc h1 h2 h3
    show pullGo oc 1 2 [] = PullOutcome.saved 3 [2, 4]
    rw [pullGo, h1]
    rw [pullGo, h2]
    rw [pullGo, h3]
    rfl

/-- C7 witness: the three behaviours at concrete outcome functions. -/
theorem c7_witness :
    pullFileRetry (fun _ => AttemptOutcome.transient)
      = PullOutcome.transientFail 3 [2, 4]
    ∧ pullFileRetry (fun _ => AttemptOutcome.httpStatus 403)
      = PullOutcome.httpFail 403 1 []
    ∧ pullFileRetry (fun a => if a = 1 then AttemptOutcome.transient
        else AttemptOutcome.httpStatus 404)
      = PullOutcome.httpFail 404 2 [2] :=
  ⟨c7_pull_file_retry.1 (fun _ => AttemptOutcome.transient) (fun _ => rfl),
    c7_pull_file_retry.2.1 (fun _ => AttemptOutcome.httpStatus 403) 403 rfl,
    c7_pull_file_retry.2.2.1
      (fun a => if a = 1 then AttemptOutcome.transient else AttemptOutcome.httpStatus 404)
      404 (by decide) (by decide)⟩

/-! ## Claim C8: file classifier -/

/-- C8: if the lower-cased extension is in the configured QDA-format set,
`_is_qda_file` is true regardless of the declared content-type or label;
and if the friendly-type label contains the "refi-qda" marker
(case-insensitively, via prior lowering), it is true even when the
extension does not match. -/
theorem c8_is_qda_file :
    (∀ (env : Env) (fname : String) (finfo : FileInfo),
      env.qdaFormats.contains (strLower (pathSuffix fname)) = true →
      isQdaFile env fname finfo = true)
    ∧ (∀ (env : Env) (fname : String) (finfo : FileInfo),
      strContains "refi-qda" (strLower (finfo.friendlyType.getD "")) = true →
      isQdaFile env fname finfo = true) := by
  constructor
  · intro env fname finfo h
    simp only [isQdaFile]
    rw [h]
    simp
  · intro env fname finfo h
    simp only [isQdaFile]
    rw [h]
    simp

/-- C8 witness: the `.qdpx` extension is accepted whatever the content-type
says, and a "REFI-QDA Project" friendly label is accepted for a `.bin`
extension outside the set. -/
theorem c8_witness :
    isQdaFile envW "interview.qdpx"
      { fileW with contentType := some "application/octet-stream" } = true
    ∧ isQdaFile envW "data.bin"
      { fileW with name := "data.bin", friendlyType := some "REFI-QDA Project" } = true :=
  ⟨c8_is_qda_file.1 envW "interview.qdpx"
      { fileW with contentType := some "application/octet-stream" } (by decide),
    c8_is_qda_file.2 envW "data.bin"
      { fileW with name := "data.bin", friendlyType := some "REFI-QDA Project" }
      (by decide)⟩

/-! ## Claim C10: the driver's seen-set is updated before the cap -/

theorem contains_append_left {seen more : List String} {url : String}
    (h : seen.contains url = true) : (seen ++ more).contains url = true :=
  List.elem_iff.mpr (List.mem_append_left more (List.elem_iff.mp h))

theorem capList_subset (cap : Option Nat) (l : List DatasetHit) :
    ∀ h ∈ capList cap l, h ∈ l := by
  intro h hm
  cases cap with
  | none => exact hm
  | some c =>
    simp only [capList] at hm
    by_cases hc : c ≠ 0
    · rw [if_pos hc] at hm
      exact List.take_subset c l hm
    · rw [if_neg hc] at hm
      exact hm

theorem runQueries_seen_excluded (env : Env) (denv : DriverEnv) (sn : String)
    (cap : Option Nat) (sizeCap : Nat) :
    ∀ (qs : List String) (seen : List String) (σ : PState) (url : String),
      seen.contains url = true →
      ∀ (j : Nat) (h : DatasetHit),
        h ∈ (runQueries env denv sn cap sizeCap qs seen σ).2.2.getD j [] →
        h.sourceUrl ≠ url := by
  intro qs
  induction qs with
  | nil =>
    intro seen σ url hseen j h hmem
    simp [runQueries] at hmem
  | cons q rest ih =>
    intro seen σ url hseen j h hmem
    simp only [runQueries] at hmem
    cases hf : denv.find q with
    | none =>
      rw [hf] at hmem
      cases j with
      | zero => simp at hmem
      | succ j => exact ih seen σ url hseen j h hmem
    | some hits =>
      rw [hf] at hmem
      cases j with
      | zero =>
        have hfresh := capList_subset cap _ h hmem
        rw [List.mem_filter] at hfresh
        intro hcontra
        have := hfresh.2
        rw [hcontra, hseen] at this
        exact absurd this (by simp)
      | succ j =>
        exact ih _ _ url (contains_append_left hseen) j h hmem

theorem runQueries_cross_query (env : Env) (denv : DriverEnv) (sn : String)
    (cap : Option Nat) (sizeCap : Nat) :
    ∀ (qs : List String) (seen : List String) (σ : PState) (i j : Nat)
      (hits : List DatasetHit) (url : String) (h : DatasetHit),
      i < j →
      denv.find (qs.getD i "") = some hits →
      url ∈ hits.map (fun x => x.sourceUrl) →
      h ∈ (runQueries env denv sn cap sizeCap qs seen σ).2.2.getD j [] →
      h.sourceUrl ≠ url := by
  intro qs
  induction qs with
  | nil =>
    intro seen σ i j hits url h _ _ _ hmem
    simp [runQueries] at hmem
  | cons q rest ih =>
    intro seen σ i j hits url h hij hfind hurl hmem
    simp only [runQueries] at hmem
    cases i with
    | zero =>
      have hq : denv.find q = some hits := hfind
      rw [hq] at hmem
      cases j with
      | zero => exact absurd hij (by simp)
      | succ j =>
        have hcont : (seen ++ (hits.filter
            (fun x => !(seen.contains x.sourceUrl))).map
              (fun x => x.sourceUrl)).contains url = true := by
          rw [List.mem_map] at hurl
          obtain ⟨x, hx, rfl⟩ := hurl
          apply List.elem_iff.mpr
          by_cases hs : seen.contains x.sourceUrl = true
          · exact List.mem_append_left _ (List.elem_iff.mp hs)
          · apply List.mem_append_right
            rw [List.mem_map]
            refine ⟨x, ?_, rfl⟩
            rw [List.mem_filter]
            exact ⟨hx, by rw [bool_false hs]; rfl⟩
        exact runQueries_seen_excluded env denv sn cap sizeCap rest _ _ url
          hcont j h hmem
    | succ i =>
      cases j with
      | zero => exact absurd hij (by simp)
      | succ j =>
        have hij2 : i < j := Nat.lt_of_succ_lt_succ hij
        cases hf : denv.find q with
        | none =>
          rw [hf] at hmem
          exact ih seen σ i j hits url h hij2 hfind hurl hmem
        | some hs =>
          rw [hf] at hmem
          exact ih _ _ i j hits url h hij2 hfind hurl hmem

/-- C10: in `_run_source` the cross-query seen-set is updated with every
hit that survives the seen-filter before the per-query cap truncates the
list, so a dataset URL returned by an earlier query's search is never fed
to the admission pipeline under a later query — even when the cap dropped
it under the earlier query and it was never processed. -/
theorem c10_seen_updated_before_cap (env : Env) (denv : DriverEnv)
    (sn : String) (cap : Option Nat) (sizeCap : Nat) (qs : List String)
    (σ : PState) (i j : Nat) (hits : List DatasetHit) (url : String)
    (h : DatasetHit) :
    i < j →
    denv.find (qs.getD i "") = some hits →
    url ∈ hits.map (fun x => x.sourceUrl) →
    h ∈ (runSourceTrace env denv sn cap sizeCap qs σ).getD j [] →
    h.sourceUrl ≠ url :=
  runQueries_cross_query env denv sn cap sizeCap qs [] σ i j hits url h

/-- C10 witness: with a per-query cap of 1, query 1 returns (u1, u2) and
only u1 is fed (u2 is dropped by the cap but marked seen); query 2 returns
(u2, u3) and feeds only u3 — and the theorem yields that the hit fed under
query 2 cannot carry u2. -/
theorem c10_witness :
    (0 : Nat) < 1
    ∧ denvW.find ((["q1", "q2"] : List String).getD 0 "") = some [hitU1, hitU2]
    ∧ "u2" ∈ ([hitU1, hitU2].map (fun x => x.sourceUrl))
    ∧ hitU3 ∈ (runSourceTrace envW denvW "qdr" (some 1) 0 ["q1", "q2"]
        ⟨[], []⟩).getD 1 []
    ∧ hitU3.sourceUrl ≠ "u2" := by
  refine ⟨by decide, by decide, by decide, by decide, ?_⟩
  exact c10_seen_updated_before_cap envW denvW "qdr" (some 1) 0 ["q1", "q2"]
    ⟨[], []⟩ 0 1 [hitU1, hitU2] "u2" hitU3 (by decide) (by decide) (by decide)
    (by decide)

end QDArchive
